import Mathlib

/-!
Shallow embedding of the core of the ptypy repository:
 * `src/ptypy/utils/parallel.py` — the `LoadManager` allocator and the MPI
   collective wrappers (`allreduce`, `_MPIop`, `MPIsum`/`MPImin`/`MPImax`/
   `MPIprod`, `barrier`);
 * `src/ptypy/engines/base.py` — the `BaseEngine` lifecycle state machine
   (`initialize`, `prepare`, `iterate`, `finalize`).

Machine integers of numpy are modelled as unbounded `Int` (the algorithms
involve only additions, multiplications by the process count and floor
divisions; overflow is not at issue in any claim).  numpy's integer floor
division `//` and floored modulo `%` are `Int.fdiv` and `Int.fmod`; the
divisor in the source is always the non-negative eligible count, for which
numpy's `0 // 0 = 0` convention coincides with `Int.fdiv _ 0 = 0`.
-/

namespace Ptypy

/-! ### LoadManager (src/ptypy/utils/parallel.py) -/

/-- Minimum of a numpy integer array (`np.min` over a 1-D array);
0 for the empty array, which numpy would reject. -/
def listMin : List Int → Int
  | [] => 0
  | x :: xs => xs.foldl min x

/-- `np.argmin`: index of the first occurrence of the minimum of the array
(0 for the empty array, which numpy would reject). -/
def argmin (l : List Int) : Nat :=
  l.findIdx (fun x => decide (x ≤ listMin l))

/-- State of `LoadManager`: `load` is the per-rank cumulative load vector
(`np.zeros((size,), dtype=int)` at construction), `rank_of` the id-to-rank
dict, modelled as an association list with most-recent-write-wins update. -/
structure LoadManager where
  load : List Int
  rank_of : List (Nat × Nat)
  deriving Repr, DecidableEq

/-- A freshly constructed `LoadManager` over `P` ranks. -/
def initLM (P : Nat) : LoadManager :=
  ⟨List.replicate P 0, []⟩

/-- Python dict update `d[k] = v`: overwrite the entry for `k` if present,
else append it. -/
def dictSet : List (Nat × Nat) → Nat → Nat → List (Nat × Nat)
  | [], k, v => [(k, v)]
  | (k', v') :: rest, k, v =>
    if k' = k then (k, v) :: rest else (k', v') :: dictSet rest k v

/-- `size - 1 - self.load[::-1].argmin()`: the highest-indexed rank among
those sharing the minimum load. -/
def anonRank (load : List Int) : Nat :=
  load.length - 1 - argmin load.reverse

/-- Eligibility test `total_load > self.load * size` for a single entry:
a rank with load `x` is eligible iff `x * size < total_load`. -/
def eligP (total : Int) (P : Nat) (x : Int) : Bool :=
  decide (x * (P : Int) < total)

/-- `self.load.sum() + Nid`. -/
def totalLoad (load : List Int) (N : Nat) : Int :=
  load.sum + N

/-- The loads of the eligible ranks, in rank order (`self.load[li]`). -/
def eligList (load : List Int) (N : Nat) : List Int :=
  load.filter (eligP (totalLoad load N) load.length)

/-- `nsize = li.sum()`: the number of eligible ranks. -/
def nsize (load : List Int) (N : Nat) : Nat :=
  (eligList load N).length

/-- The recomputed total `self.load[li].sum() + Nid`. -/
def totalElig (load : List Int) (N : Nat) : Int :=
  (eligList load N).sum + N

/-- `partition = total_load - self.load[li]*nsize`. -/
def partitionList (load : List Int) (N : Nat) : List Int :=
  (eligList load N).map (fun x => totalElig load N - x * (nsize load N : Int))

/-- `ipart = partition // nsize` (floor division, divisor `nsize ≥ 0`). -/
def ipart0 (load : List Int) (N : Nat) : List Int :=
  (partitionList load N).map (fun p => p.fdiv (nsize load N : Int))

/-- `rem = (partition % nsize).sum() // nsize` (floored modulo; the result
is a non-negative integer, read back as a `Nat`). -/
def remCount (load : List Int) (N : Nat) : Nat :=
  (((partitionList load N).map (fun p => Int.fmod p (nsize load N : Int))).sum.fdiv
    (nsize load N : Int)).toNat

/-- `ipart[:-int(1+rem):-1] += 1`: add 1 to each of the last `rem` entries
(the entry at position `j` is incremented iff `len - j ≤ rem`, i.e. iff the
suffix starting at it has length at most `rem`). -/
def addToLast (rem : Nat) : List Int → List Int
  | [] => []
  | x :: xs => (if (x :: xs).length ≤ rem then x + 1 else x) :: addToLast rem xs

/-- The per-eligible-rank allocation after remainder spreading. -/
def ipartList (load : List Int) (N : Nat) : List Int :=
  addToLast (remCount load N) (ipart0 load N)

/-- `part = np.zeros_like(self.load); part[li] = ipart`: scatter the values
`vs` back into the eligible positions of `l`, zero elsewhere. -/
def scatterParts (pred : Int → Bool) : List Int → List Int → List Int
  | [], _ => []
  | x :: xs, vs =>
    if pred x then vs.headD 0 :: scatterParts pred xs vs.tail
    else 0 :: scatterParts pred xs vs

/-- The per-rank allocation vector `part` (full length `P`). -/
def partList (load : List Int) (N : Nat) : List Int :=
  scatterParts (eligP (totalLoad load N) load.length) load (ipartList load N)

/-- `np.cumsum` with a running accumulator. -/
def cumsumFrom (acc : Int) : List Int → List Int
  | [] => []
  | x :: xs => (acc + x) :: cumsumFrom (acc + x) xs

/-- `cumpart = np.cumsum(part)`. -/
def cumsum (l : List Int) : List Int :=
  cumsumFrom 0 l

def cumpartList (load : List Int) (N : Nat) : List Int :=
  cumsum (partList load N)

/-- `self.load += part`. -/
def newLoad (load : List Int) (N : Nat) : List Int :=
  load.zipWith (· + ·) (partList load N)

/-- `rlist[i < cumpart][0]`: the first rank whose cumulative boundary
exceeds item index `i`.  (In the source an empty selection would raise an
IndexError; it is proven unreachable — the boundary at the last rank equals
`N`.  `findIdx` returns the list length in that impossible case.) -/
def chooseRank (cumpart : List Int) (i : Nat) : Nat :=
  cumpart.findIdx (fun x => decide ((i : Int) < x))

/-- The returned partition `out`: the loop `for i, k in enumerate(idlist)`
appends each `i` (in increasing order) to `out[r]` for
`r = rlist[i < cumpart][0]`, so `out[r]` is the increasing list of item
indices choosing rank `r`. -/
def bulkOut (load : List Int) (N : Nat) : List (List Nat) :=
  (List.range load.length).map (fun r =>
    (List.range N).filter (fun i => decide (chooseRank (cumpartList load N) i = r)))

/-- The `rank_of` dict updates performed by the same loop:
`self.rank_of[k] = r`, later writes winning. -/
def bulkRankOf (load : List Int) (N : Nat) (idlist : List Nat)
    (d : List (Nat × Nat)) : List (Nat × Nat) :=
  idlist.enum.foldl
    (fun acc p => dictSet acc p.2 (chooseRank (cumpartList load N) p.1)) d

/-- `LoadManager.assign` with `idlist is None`: increase by one the load of
the least-busy rank (ties to the highest index); `rank_of` untouched. -/
def assignAnon (s : LoadManager) : LoadManager × List (List Nat) :=
  let r := anonRank s.load
  (⟨s.load.set r (s.load.getD r 0 + 1), s.rank_of⟩,
   (List.range s.load.length).map (fun rr => if rr = r then [0] else []))

/-- `LoadManager.assign` with an id list (bulk mode). -/
def assignBulk (s : LoadManager) (idlist : List Nat) :
    LoadManager × List (List Nat) :=
  let N := idlist.length
  (⟨newLoad s.load N, bulkRankOf s.load N idlist s.rank_of⟩, bulkOut s.load N)

/-- `LoadManager.assign(self, idlist=None)`. -/
def LoadManager.assign (s : LoadManager) :
    Option (List Nat) → LoadManager × List (List Nat)
  | none => assignAnon s
  | some idlist => assignBulk s idlist

/-- Run a sequence of `assign` calls (each either anonymous or bulk),
keeping the manager state. -/
def runAssigns (s : LoadManager) (reqs : List (Option (List Nat))) :
    LoadManager :=
  reqs.foldl (fun st q => (st.assign q).1) s

/-! ### MPI collective wrappers (src/ptypy/utils/parallel.py)

The transport (`comm.Allreduce`, `comm.Barrier`) is an external
collaborator; it is modelled as an opaque parameter `Comm`, applied only on
the `MPIenabled` branch.  Per-rank contributions are 1-D integer arrays,
`none` standing for Python `None` (a rank owning no data for the slot). -/

inductive MPIRed | SUM | MIN | MAX | PROD
  deriving Repr, DecidableEq

/-- `np.sum` / `np.min` / `np.max` / `np.prod` reducing a 1-D array to a
scalar.  (`np.min`/`np.max` of an empty array raise in numpy; the model
returns 0 there, and no claim touches that case.) -/
def npReduce : MPIRed → List Int → Int
  | .SUM, l => l.sum
  | .PROD, l => l.prod
  | .MIN, [] => 0
  | .MIN, x :: xs => xs.foldl min x
  | .MAX, [] => 0
  | .MAX, x :: xs => xs.foldl max x

/-- Builtin `sum` of a generator of same-shape arrays: `np.sum` is the one
numpy reduction with a generator fallback to Python's builtin `sum`, which
adds the arrays elementwise starting from the integer 0 (so one array comes
back unchanged).  On an empty generator builtin `sum` yields the integer 0;
no claim touches that case and the model returns the empty array there. -/
def ewSum : List (List Int) → List Int
  | [] => []
  | a :: rest => rest.foldl (fun acc b => acc.zipWith (· + ·) b) a

/-- Opaque transport backend: what `comm.Allreduce` computes on each branch
(only invoked when `MPIenabled`). -/
structure Comm where
  reduceScalar : MPIRed → Int → Int
  reduceArr : MPIRed → List Int → List Int
  allreduceArr : Option MPIRed → List Int → List Int

/-- A transport that does nothing (usable as a concrete instance). -/
def idComm : Comm :=
  ⟨fun _ x => x, fun _ a => a, fun _ a => a⟩

/-- Result of `_MPIop`: a scalar (`axis=None`), one reduced array
(`axis=0` with SUM), one optional reduced value per contribution (`axis>0`
over 1-D contributions reduces each along `axis-1 = 0` to a scalar), or —
for `axis=0` with MIN/MAX/PROD — the unconsumed generator object itself:
`npop(ai for ai in a if ai is not None)` feeds a generator expression to
the numpy reduction, and only `np.sum` falls back to builtin `sum`;
`np.min`/`np.max`/`np.prod` wrap the generator in a 0-d object array and
return its sole element, the generator, performing no reduction.
`genObj` records the non-None contributions the generator ranges over. -/
inductive MPIResult
  | scalar (x : Int)
  | arr (a : List Int)
  | perRank (l : List (Option Int))
  | genObj (contributions : List (List Int))
  deriving Repr, DecidableEq

/-- `_MPIop(a, op, axis)`.  `enabled` is the module flag `MPIenabled`
(false exactly when only one rank participates).  On the `axis=0` branch
with MIN/MAX/PROD the local value is the unconsumed generator object (see
`MPIResult`); with MPI enabled the source would then hand that non-array
to `comm.Allreduce`, a transport failure outside this model — every claim
concerns the disabled path. -/
def MPIop (enabled : Bool) (comm : Comm) (a : List (Option (List Int)))
    (k : MPIRed) (axis : Option Nat) : MPIResult :=
  match axis with
  | none =>
    let s := npReduce k ((a.filterMap id).map (npReduce k))
    .scalar (if enabled then comm.reduceScalar k s else s)
  | some 0 =>
    match k with
    | .SUM =>
      let s := ewSum (a.filterMap id)
      .arr (if enabled then comm.reduceArr .SUM s else s)
    | _ => .genObj (a.filterMap id)
  | some (_ + 1) =>
    .perRank (a.map (Option.map (npReduce k)))

def MPIsum (enabled : Bool) (comm : Comm) (a : List (Option (List Int)))
    (axis : Option Nat) : MPIResult := MPIop enabled comm a .SUM axis

def MPImin (enabled : Bool) (comm : Comm) (a : List (Option (List Int)))
    (axis : Option Nat) : MPIResult := MPIop enabled comm a .MIN axis

def MPImax (enabled : Bool) (comm : Comm) (a : List (Option (List Int)))
    (axis : Option Nat) : MPIResult := MPIop enabled comm a .MAX axis

def MPIprod (enabled : Bool) (comm : Comm) (a : List (Option (List Int)))
    (axis : Option Nat) : MPIResult := MPIop enabled comm a .PROD axis

/-- `allreduce(a, op)`: in-place on the MPI branch (the value returned here
is the caller's array after the call); `if not MPIenabled: return` leaves
the array untouched. -/
def allreduce (enabled : Bool) (comm : Comm) (op : Option MPIRed)
    (a : List Int) : List Int :=
  if enabled then comm.allreduceArr op a else a

/-- `barrier()`: whether `comm.Barrier()` is invoked (the only observable
effect of the wrapper; `if not MPIenabled: return` skips it). -/
def barrierInvokesComm (enabled : Bool) : Bool :=
  if enabled then true else false

/-! ### BaseEngine lifecycle (src/ptypy/engines/base.py)

The engine-specific hooks (`engine_initialize` etc.) and the bindings to
the parent `ptycho` object are external collaborators: the hooks mutate
none of the core bookkeeping fields, and `engine_iterate` returns an opaque
error value, modelled by an oracle `E : Nat → ε` read at the current
counter.  Wall-clock durations are external (time.time()) and omitted from
the record; the record keeps the fields the claims speak about. -/

structure IterRecord (ε : Type) where
  iteration : Nat
  error : ε
  deriving Repr, DecidableEq

structure EngineState (ε : Type) where
  numiter : Nat
  numiter_contiguous : Nat
  curiter : Nat
  finished : Bool
  errorlist : List ε
  itermeta : List (IterRecord ε)
  iterInfo : List (Nat × IterRecord ε)
  deriving Repr, DecidableEq

/-- `BaseEngine.__init__`: `itermeta = []`, `finished = False`,
`numiter = p.numiter` (`curiter`/`errorlist` first exist after
`initialize`; they are given their `initialize` values here). -/
def mkEngine (ε : Type) (numiter numiter_contiguous : Nat) : EngineState ε :=
  { numiter := numiter, numiter_contiguous := numiter_contiguous,
    curiter := 0, finished := false, errorlist := [], itermeta := [],
    iterInfo := [] }

/-- `initialize()`: `curiter = 0`, `errorlist = []`; the data bindings and
`engine_initialize()` hook touch no core field.  Note: neither `finished`
nor `itermeta` is reset. -/
def initializeE (s : EngineState ε) : EngineState ε :=
  { s with curiter := 0, errorlist := [] }

/-- `prepare()`: `finished = False`; the probe-support computation and the
`engine_prepare()` hook touch no core field. -/
def prepareE (s : EngineState ε) : EngineState ε :=
  { s with finished := false }

/-- The body of one loop pass of `iterate` (reached only when not yet
finished): call the hook, append the error, bump the counter, set
`finished` on reaching `numiter`, append the record locally and to the
run-info log stamped with the current global record count, then
`parallel.barrier()` (stateless here). -/
def iterOnce (E : Nat → ε) (s : EngineState ε) : EngineState ε :=
  let error := E s.curiter
  let curiter := s.curiter + 1
  let finished := if curiter = s.numiter then true else s.finished
  let record : IterRecord ε := ⟨curiter, error⟩
  { s with
    errorlist := s.errorlist ++ [error]
    curiter := curiter
    finished := finished
    itermeta := s.itermeta ++ [record]
    iterInfo := s.iterInfo ++ [(s.iterInfo.length, record)] }

/-- `for n in range(N): if self.finished: break; ...` -/
def iterLoop (E : Nat → ε) : Nat → EngineState ε → EngineState ε
  | 0, s => s
  | n + 1, s => if s.finished then s else iterLoop E n (iterOnce E s)

/-- `iterate(num)`: `N = self.p.numiter_contiguous` unless `num` is given. -/
def iterateE (E : Nat → ε) (num : Option Nat) (s : EngineState ε) :
    EngineState ε :=
  iterLoop E (num.getD s.numiter_contiguous) s

/-- `finalize()`: only the `engine_finalize()` hook; no core field. -/
def finalizeE (s : EngineState ε) : EngineState ε := s

/-- `k` successive calls `self.iterate()` (default batch size). -/
def iterateCalls (E : Nat → ε) : Nat → EngineState ε → EngineState ε
  | 0, s => s
  | k + 1, s => iterateE E none (iterateCalls E k s)

/-- Balance predicate on a load vector: every entry is `L` or `L+1` for a
common `L`.  It holds initially and is preserved by every `assign`. -/
def Balanced (load : List Int) : Prop :=
  ∃ L : Int, ∀ x ∈ load, x = L ∨ x = L + 1

end Ptypy

namespace Ptypy

/-! ## Engine lifecycle lemmas -/

theorem iterLoop_of_finished (E : Nat → ε) (n : Nat) (s : EngineState ε)
    (h : s.finished = true) : iterLoop E n s = s := by
  cases n with
  | zero => rfl
  | succ n => simp [iterLoop, h]

theorem iterateE_of_finished (E : Nat → ε) (num : Option Nat)
    (s : EngineState ε) (h : s.finished = true) : iterateE E num s = s :=
  iterLoop_of_finished E _ s h

theorem iterOnce_numiter (E : Nat → ε) (s : EngineState ε) :
    (iterOnce E s).numiter = s.numiter := rfl

theorem iterOnce_curiter (E : Nat → ε) (s : EngineState ε) :
    (iterOnce E s).curiter = s.curiter + 1 := rfl

theorem iterOnce_finished_iff (E : Nat → ε) (s : EngineState ε) :
    (iterOnce E s).finished = true ↔
      (s.curiter + 1 = s.numiter ∨ s.finished = true) := by
  simp only [iterOnce]
  split <;> simp_all

theorem iterLoop_succ_not_finished (E : Nat → ε) (n : Nat)
    (s : EngineState ε) (h : s.finished = false) :
    iterLoop E (n + 1) s = iterLoop E n (iterOnce E s) := by
  simp [iterLoop, h]

theorem iterLoop_numiter (E : Nat → ε) :
    ∀ (n : Nat) (s : EngineState ε), (iterLoop E n s).numiter = s.numiter := by
  intro n
  induction n with
  | zero => intro s; rfl
  | succ n ih =>
    intro s
    by_cases h : s.finished = true
    · simp [iterLoop, h]
    · simp only [Bool.not_eq_true] at h
      rw [iterLoop_succ_not_finished E n s h, ih]
      rfl

theorem iterLoop_budget (E : Nat → ε) :
    ∀ (n : Nat) (s : EngineState ε), s.curiter ≤ s.numiter →
      (s.curiter = s.numiter → s.finished = true) →
      (iterLoop E n s).curiter ≤ s.numiter ∧
      ((iterLoop E n s).curiter = s.numiter →
        (iterLoop E n s).finished = true) := by
  intro n
  induction n with
  | zero =>
    intro s h1 h2
    constructor
    · exact h1
    · exact h2
  | succ n ih =>
    intro s h1 h2
    by_cases h : s.finished = true
    · rw [iterLoop_of_finished E (n + 1) s h]
      exact ⟨h1, h2⟩
    · simp only [Bool.not_eq_true] at h
      rw [iterLoop_succ_not_finished E n s h]
      have := ih (iterOnce E s) (by
        rw [iterOnce_curiter, iterOnce_numiter]
        have hlt : s.curiter < s.numiter := by
          rcases Nat.lt_or_eq_of_le h1 with h' | h'
          · exact h'
          · exact absurd (h2 h') (by simp [h])
        omega)
        (by
          intro hc
          rw [iterOnce_finished_iff]
          left
          rw [iterOnce_curiter, iterOnce_numiter] at hc
          exact hc)
      rw [iterOnce_numiter] at this
      exact this

theorem iterLoop_inv (E : Nat → ε) :
    ∀ (n : Nat) (s : EngineState ε),
      s.curiter = s.errorlist.length →
      s.errorlist.length = s.itermeta.length →
      (iterLoop E n s).curiter = (iterLoop E n s).errorlist.length ∧
      (iterLoop E n s).errorlist.length = (iterLoop E n s).itermeta.length := by
  intro n
  induction n with
  | zero =>
    intro s h1 h2
    constructor
    · exact h1
    · exact h2
  | succ n ih =>
    intro s h1 h2
    by_cases h : s.finished = true
    · rw [iterLoop_of_finished E (n + 1) s h]
      exact ⟨h1, h2⟩
    · simp only [Bool.not_eq_true] at h
      rw [iterLoop_succ_not_finished E n s h]
      exact ih (iterOnce E s) (by simp [iterOnce, h1]) (by simp [iterOnce, h2])

/-- C3 (counterexample): with a budget of one iteration, a single `iterate()`
call sets `finished`, and the very next `prepare()` resets it to `false` —
`finished` does go from true back to false in a reachable lifecycle
sequence, because `prepare` clears it unconditionally. -/
theorem prepare_resets_finished_counterexample :
    (iterateE (fun _ => ()) none (initializeE (mkEngine Unit 1 1))).finished
        = true ∧
    (prepareE (iterateE (fun _ => ())
        none (initializeE (mkEngine Unit 1 1)))).finished = false := by
  constructor
  · rfl
  · rfl

/-- C3 (amended): the `finished` flag starts false; it is set during
iteration exactly when the counter reaches `numiter`; `initialize`,
`iterate` and `finalize` never reset it from true to false (only `prepare`
does); and whenever the counter is within budget on entry — with `finished`
already set if the budget is exhausted — `iterate` never drives the counter
past the budget without `finished` being set. -/
theorem finished_flag_lifecycle (ε : Type) (E : Nat → ε) (n nc : Nat)
    (num : Option Nat) :
    (mkEngine ε n nc).finished = false ∧
    (∀ s : EngineState ε, s.finished = true →
      (initializeE s).finished = true ∧ (iterateE E num s).finished = true ∧
      (finalizeE s).finished = true) ∧
    (∀ s : EngineState ε, s.finished = false →
      ((iterOnce E s).finished = true ↔ s.curiter + 1 = s.numiter)) ∧
    (∀ s : EngineState ε, s.curiter ≤ s.numiter →
      (s.curiter = s.numiter → s.finished = true) →
      (iterateE E num s).curiter ≤ (iterateE E num s).numiter ∧
      ((iterateE E num s).curiter = (iterateE E num s).numiter →
        (iterateE E num s).finished = true)) := by
  refine ⟨rfl, ?_, ?_, ?_⟩
  · intro s hs
    refine ⟨hs, ?_, hs⟩
    rw [iterateE_of_finished E num s hs]
    exact hs
  · intro s hs
    rw [iterOnce_finished_iff]
    simp [hs]
  · intro s h1 h2
    have hb := iterLoop_budget E (num.getD s.numiter_contiguous) s h1 h2
    have hn := iterLoop_numiter E (num.getD s.numiter_contiguous) s
    unfold iterateE
    rw [hn]
    exact hb

theorem finished_flag_lifecycle_witness :
    (mkEngine Unit 1 1).finished = false ∧
    ((⟨1, 1, 1, true, [()], [⟨1, ()⟩], [(0, ⟨1, ()⟩)]⟩ :
        EngineState Unit).finished = true ∧
      (iterateE (fun _ => ()) none
        (⟨1, 1, 1, true, [()], [⟨1, ()⟩], [(0, ⟨1, ()⟩)]⟩ :
          EngineState Unit)).finished = true) := by
  have h := finished_flag_lifecycle Unit (fun _ => ()) 1 1 none
  exact ⟨h.1, by decide, (h.2.1 _ (by decide)).2.1⟩

/-- C4 (confirmed): with budget 5 and contiguous batch size 1, five
`iterate()` calls from a freshly initialized engine reach `finished = true`
with an error history of length 5, and a sixth call leaves the whole state
unchanged. -/
theorem five_iterations_then_noop (ε : Type) (E : Nat → ε) :
    (iterateCalls E 5 (initializeE (mkEngine ε 5 1))).finished = true ∧
    (iterateCalls E 5 (initializeE (mkEngine ε 5 1))).errorlist.length = 5 ∧
    iterateE E none (iterateCalls E 5 (initializeE (mkEngine ε 5 1))) =
      iterateCalls E 5 (initializeE (mkEngine ε 5 1)) := by
  simp [iterateCalls, iterateE, iterLoop, iterOnce, initializeE, mkEngine]

/-- C10 (counterexample): `initialize()` resets the counter and the error
history but not `itermeta`, so re-initializing after one completed
iteration leaves `curiter = 0 = |errorlist|` but `|itermeta| = 1` — the
claimed three-way equality fails after that reachable `initialize()`. -/
theorem reinitialize_breaks_invariant_counterexample :
    ¬((initializeE (iterateE (fun _ => ()) none
          (initializeE (mkEngine Unit 1 1)))).curiter =
        (initializeE (iterateE (fun _ => ()) none
          (initializeE (mkEngine Unit 1 1)))).errorlist.length ∧
      (initializeE (iterateE (fun _ => ()) none
          (initializeE (mkEngine Unit 1 1)))).errorlist.length =
        (initializeE (iterateE (fun _ => ()) none
          (initializeE (mkEngine Unit 1 1)))).itermeta.length) := by
  decide

/-- C10 (amended): `initialize()` always establishes
`curiter = |errorlist|` (both zero); on a freshly constructed engine it
also equals `|itermeta|` (which `initialize` does not clear); and every
`iterate(n)` call preserves the full equality
`curiter = |errorlist| = |itermeta|`. -/
theorem bookkeeping_invariant (ε : Type) (E : Nat → ε) (n nc : Nat)
    (num : Option Nat) (s t : EngineState ε)
    (h1 : t.curiter = t.errorlist.length)
    (h2 : t.errorlist.length = t.itermeta.length) :
    ((initializeE s).curiter = (initializeE s).errorlist.length) ∧
    ((initializeE (mkEngine ε n nc)).curiter = 0 ∧
      (initializeE (mkEngine ε n nc)).errorlist.length = 0 ∧
      (initializeE (mkEngine ε n nc)).itermeta.length = 0) ∧
    ((iterateE E num t).curiter = (iterateE E num t).errorlist.length ∧
      (iterateE E num t).errorlist.length =
        (iterateE E num t).itermeta.length) := by
  refine ⟨rfl, ⟨rfl, rfl, rfl⟩, ?_⟩
  exact iterLoop_inv E _ t h1 h2

theorem bookkeeping_invariant_witness :
    ((0 : Nat) = 0 ∧ (0 : Nat) = 0) ∧
    ((iterateE (fun _ => ()) none (initializeE (mkEngine Unit 2 1))).curiter =
        (iterateE (fun _ => ()) none
          (initializeE (mkEngine Unit 2 1))).errorlist.length ∧
      (iterateE (fun _ => ()) none
          (initializeE (mkEngine Unit 2 1))).errorlist.length =
        (iterateE (fun _ => ()) none
          (initializeE (mkEngine Unit 2 1))).itermeta.length) := by
  have h := bookkeeping_invariant Unit (fun _ => ()) 2 1 none
    (mkEngine Unit 2 1) (initializeE (mkEngine Unit 2 1)) (by decide) (by decide)
  exact ⟨⟨rfl, rfl⟩, h.2.2⟩

/-! ## MPI collective lemmas -/

/-- C9 (counterexample): with a single participating rank the reductions do
not return their input unchanged: `MPIsum` on the single contribution
`[1,2,3]` with `axis=None` performs the local reduction and returns the
scalar 6, not the array. -/
theorem mpiop_not_identity_counterexample :
    MPIsum false idComm [some [1, 2, 3]] none = MPIResult.scalar 6 ∧
    MPIResult.scalar 6 ≠ MPIResult.arr [1, 2, 3] := by
  constructor
  · rfl
  · decide

/-- C9 (amended): with a single participating rank (`MPIenabled = false`),
`allreduce` returns the caller's array untouched for every op, `barrier`
performs no communicator call, and the `_MPIop` reductions perform no
cross-rank communication (the result is independent of the transport) —
but they are not the identity: `axis=None` performs the full local
reduction (a scalar), and on the `axis=0` branch only SUM reduces the
contributions (builtin `sum` generator fallback), so a single contributed
array comes back unchanged for SUM alone, while MIN/MAX/PROD hand the
generator expression to a reduction with no generator fallback and return
the unconsumed generator object, performing no reduction at all. -/
theorem single_rank_collectives (k : MPIRed) (ax : Option Nat) :
    (∀ (comm : Comm) (op : Option MPIRed) (a : List Int),
      allreduce false comm op a = a) ∧
    barrierInvokesComm false = false ∧
    (∀ (comm comm' : Comm) (a : List (Option (List Int))),
      MPIop false comm a k ax = MPIop false comm' a k ax) ∧
    (∀ (comm : Comm) (x : List Int),
      MPIop false comm [some x] MPIRed.SUM (some 0) = MPIResult.arr x) ∧
    (∀ (comm : Comm) (x : List Int), k ≠ MPIRed.SUM →
      MPIop false comm [some x] k (some 0) = MPIResult.genObj [x]) := by
  refine ⟨fun comm op a => rfl, rfl, ?_, ?_, ?_⟩
  · intro comm comm' a
    cases ax with
    | none => simp [MPIop]
    | some m =>
      cases m with
      | zero => cases k <;> simp [MPIop]
      | succ m => simp [MPIop]
  · intro comm x
    simp [MPIop, ewSum]
  · intro comm x hk
    cases k with
    | SUM => exact absurd rfl hk
    | MIN => rfl
    | MAX => rfl
    | PROD => rfl

theorem single_rank_collectives_witness :
    (MPIRed.MIN ≠ MPIRed.SUM) ∧
    MPIop false idComm [some [1, 2, 3]] MPIRed.MIN (some 0) =
      MPIResult.genObj [[1, 2, 3]] :=
  ⟨by decide,
    (single_rank_collectives MPIRed.MIN (some 0)).2.2.2.2 idComm [1, 2, 3]
      (by decide)⟩

end Ptypy

namespace Ptypy

/-! ## List minimum and argmin lemmas -/

theorem foldl_min_le_init : ∀ (xs : List Int) (a : Int), xs.foldl min a ≤ a := by
  intro xs
  induction xs with
  | nil => intro a; exact le_refl a
  | cons x xs ih =>
    intro a
    calc (x :: xs).foldl min a = xs.foldl min (min a x) := rfl
    _ ≤ min a x := ih (min a x)
    _ ≤ a := min_le_left a x

theorem foldl_min_le_mem :
    ∀ (xs : List Int) (a x : Int), x ∈ xs → xs.foldl min a ≤ x := by
  intro xs
  induction xs with
  | nil => intro a x hx; cases hx
  | cons y ys ih =>
    intro a x hx
    rcases List.mem_cons.mp hx with rfl | hx
    · calc (x :: ys).foldl min a = ys.foldl min (min a x) := rfl
      _ ≤ min a x := foldl_min_le_init ys (min a x)
      _ ≤ x := min_le_right a x
    · rw [List.foldl_cons]
      exact ih (min a y) x hx

theorem foldl_min_cases :
    ∀ (xs : List Int) (a : Int), xs.foldl min a = a ∨ xs.foldl min a ∈ xs := by
  intro xs
  induction xs with
  | nil => intro a; exact Or.inl rfl
  | cons y ys ih =>
    intro a
    rcases ih (min a y) with h | h
    · rcases le_total a y with hy | hy
      · left
        simpa [min_eq_left hy] using h
      · right
        rw [List.foldl_cons, h, min_eq_right hy]
        exact List.mem_cons_self y ys
    · right
      exact List.mem_cons_of_mem y h

theorem listMin_le (l : List Int) : ∀ x ∈ l, listMin l ≤ x := by
  intro x hx
  cases l with
  | nil => cases hx
  | cons y ys =>
    rcases List.mem_cons.mp hx with rfl | hx
    · exact foldl_min_le_init ys x
    · exact foldl_min_le_mem ys y x hx

theorem listMin_mem {l : List Int} (h : l ≠ []) : listMin l ∈ l := by
  cases l with
  | nil => exact absurd rfl h
  | cons y ys =>
    rcases foldl_min_cases ys y with h' | h'
    · rw [listMin, h']
      exact List.mem_cons_self y ys
    · exact List.mem_cons_of_mem y h'

theorem listMin_reverse (l : List Int) : listMin l.reverse = listMin l := by
  cases l with
  | nil => rfl
  | cons y ys =>
    apply le_antisymm
    · exact listMin_le _ _ (List.mem_reverse.mpr (listMin_mem (by simp)))
    · exact listMin_le _ _ (List.mem_reverse.mp (listMin_mem (by simp)))

theorem getD_eq_getElem_of_lt {l : List Int} {n : Nat} (h : n < l.length) :
    l.getD n 0 = l[n] := by
  simp [List.getD_eq_getElem?_getD, List.getElem?_eq_getElem h]

theorem argmin_lt_length {l : List Int} (h : l ≠ []) : argmin l < l.length :=
  List.findIdx_lt_length_of_exists
    ⟨listMin l, listMin_mem h, by simp⟩

theorem argmin_val {l : List Int} (h : l ≠ []) :
    l.getD (argmin l) 0 = listMin l := by
  have hlt := argmin_lt_length h
  have h1 : decide (l[argmin l] ≤ listMin l) = true :=
    List.findIdx_getElem (w := hlt)
  have h2 : listMin l ≤ l[argmin l] :=
    listMin_le l _ (l.getElem_mem hlt)
  rw [getD_eq_getElem_of_lt hlt]
  exact le_antisymm (by simpa using h1) h2

theorem argmin_first {l : List Int} {j : Nat} (hj : j < argmin l)
    (hlen : j < l.length) : listMin l < l.getD j 0 := by
  have h := List.not_of_lt_findIdx (p := fun x => decide (x ≤ listMin l)) hj
  rw [getD_eq_getElem_of_lt hlen]
  have h' : ¬(l[j] ≤ listMin l) := by simpa using h
  omega

theorem anonRank_lt {l : List Int} (h : l ≠ []) : anonRank l < l.length := by
  have h1 : 0 < l.length := List.length_pos.mpr h
  unfold anonRank
  omega

theorem anonRank_val {l : List Int} (h : l ≠ []) :
    l.getD (anonRank l) 0 = listMin l := by
  have hrev : l.reverse ≠ [] := by simpa using h
  have ha := argmin_lt_length hrev
  rw [List.length_reverse] at ha
  have h1 : l.reverse.getD (argmin l.reverse) 0 = listMin l.reverse :=
    argmin_val hrev
  rw [listMin_reverse] at h1
  have h2 : l.reverse.getD (argmin l.reverse) 0 = l.getD (anonRank l) 0 := by
    have hlt : argmin l.reverse < l.reverse.length := by
      rw [List.length_reverse]; exact ha
    rw [getD_eq_getElem_of_lt hlt, List.getElem_reverse]
    rw [getD_eq_getElem_of_lt (by unfold anonRank; omega)]
    unfold anonRank
    rfl
  rw [← h2, h1]

theorem anonRank_last {l : List Int} {j : Nat} (hj : j < l.length)
    (hv : l.getD j 0 = listMin l) : j ≤ anonRank l := by
  by_contra hcon
  push_neg at hcon
  have hne : l ≠ [] := by
    intro he
    rw [he] at hj
    exact absurd hj (by simp)
  have hrev : l.reverse ≠ [] := by simpa using hne
  have ha := argmin_lt_length hrev
  rw [List.length_reverse] at ha
  have hlt : l.length - 1 - j < argmin l.reverse := by
    unfold anonRank at hcon
    omega
  have hfirst := argmin_first (l := l.reverse) hlt
    (by rw [List.length_reverse]; omega)
  rw [listMin_reverse] at hfirst
  have heq : l.reverse.getD (l.length - 1 - j) 0 = l.getD j 0 := by
    have hl : l.length - 1 - j < l.reverse.length := by
      rw [List.length_reverse]; omega
    rw [getD_eq_getElem_of_lt hl, List.getElem_reverse]
    have : l.length - 1 - (l.length - 1 - j) = j := by omega
    rw [getD_eq_getElem_of_lt (by omega)]
    congr 1
  rw [heq, hv] at hfirst
  exact absurd hfirst (lt_irrefl _)

/-- C5 (confirmed): an anonymous `assign()` picks the highest-indexed rank
among those sharing the minimum load, increments exactly that rank's load
by 1, returns the all-empty partition except `[0]` at that rank, and
leaves `rank_of` untouched; in particular on load `[2,1,1,3]` it picks
rank 2, giving `[2,1,2,3]`. -/
theorem anonymous_assign_spec (d : List (Nat × Nat)) (load : List Int)
    (h : load ≠ []) :
    (∀ j, j < load.length → load.getD (anonRank load) 0 ≤ load.getD j 0) ∧
    (∀ j, j < load.length → load.getD j 0 = load.getD (anonRank load) 0 →
      j ≤ anonRank load) ∧
    assignAnon ⟨load, d⟩ =
      (⟨load.set (anonRank load) (load.getD (anonRank load) 0 + 1), d⟩,
       (List.range load.length).map
         (fun rr => if rr = anonRank load then [0] else [])) ∧
    assignAnon ⟨[2, 1, 1, 3], []⟩ = (⟨[2, 1, 2, 3], []⟩, [[], [], [0], []]) := by
  refine ⟨?_, ?_, rfl, by decide⟩
  · intro j hj
    rw [anonRank_val h, getD_eq_getElem_of_lt hj]
    exact listMin_le load _ (load.getElem_mem hj)
  · intro j hj hv
    rw [anonRank_val h] at hv
    exact anonRank_last hj hv

theorem anonymous_assign_spec_witness :
    ([2, 1, 1, 3] : List Int) ≠ [] ∧
    assignAnon ⟨[2, 1, 1, 3], []⟩ = (⟨[2, 1, 2, 3], []⟩, [[], [], [0], []]) :=
  ⟨by decide, (anonymous_assign_spec [] [2, 1, 1, 3] (by decide)).2.2.2⟩

end Ptypy

namespace Ptypy

/-! ## Bulk-mode structural lemmas -/

theorem length_addToLast (rem : Nat) :
    ∀ l : List Int, (addToLast rem l).length = l.length := by
  intro l
  induction l with
  | nil => rfl
  | cons x xs ih => simp [addToLast, ih]

theorem sum_addToLast (rem : Nat) :
    ∀ l : List Int, (addToLast rem l).sum = l.sum + (min rem l.length : Nat) := by
  intro l
  induction l with
  | nil => simp [addToLast]
  | cons x xs ih =>
    rw [addToLast, List.sum_cons, ih, List.sum_cons]
    by_cases h : (x :: xs).length ≤ rem
    · rw [if_pos h]
      simp only [List.length_cons] at h ⊢
      have h1 : min rem (xs.length + 1) = xs.length + 1 := by omega
      have h2 : min rem xs.length = xs.length := by omega
      rw [h1, h2]
      push_cast
      ring
    · rw [if_neg h]
      simp only [List.length_cons] at h ⊢
      have h1 : min rem (xs.length + 1) = rem := by omega
      have h2 : min rem xs.length = rem := by omega
      rw [h1, h2]
      ring

theorem length_scatterParts (pred : Int → Bool) :
    ∀ (l vs : List Int), (scatterParts pred l vs).length = l.length := by
  intro l
  induction l with
  | nil => intro vs; rfl
  | cons x xs ih =>
    intro vs
    by_cases h : pred x
    · simp [scatterParts, h, ih]
    · simp [scatterParts, h, ih]

theorem sum_scatterParts (pred : Int → Bool) :
    ∀ (l vs : List Int), vs.length = (l.filter pred).length →
      (scatterParts pred l vs).sum = vs.sum := by
  intro l
  induction l with
  | nil =>
    intro vs hv
    simp only [List.filter_nil, List.length_nil] at hv
    rw [List.length_eq_zero.mp hv]
    rfl
  | cons x xs ih =>
    intro vs hv
    by_cases h : pred x
    · rw [List.filter_cons_of_pos h] at hv
      cases vs with
      | nil => simp at hv
      | cons v vt =>
        simp only [List.length_cons, Nat.succ.injEq] at hv
        simp only [scatterParts, h, if_true, List.headD_cons, List.tail_cons,
          List.sum_cons]
        rw [ih vt hv]
    · rw [List.filter_cons_of_neg h] at hv
      simp only [scatterParts, h, Bool.false_eq_true, if_false, List.sum_cons]
      rw [ih vs hv]
      ring

theorem scatterParts_nil_vs (pred : Int → Bool) :
    ∀ l : List Int, scatterParts pred l [] = l.map (fun _ => (0 : Int)) := by
  intro l
  induction l with
  | nil => rfl
  | cons x xs ih =>
    by_cases h : pred x
    · simp [scatterParts, h, ih]
    · simp [scatterParts, h, ih]

theorem zipWith_add_map_zero :
    ∀ l : List Int, l.zipWith (· + ·) (l.map fun _ => (0 : Int)) = l := by
  intro l
  induction l with
  | nil => rfl
  | cons x xs ih =>
    simp only [List.map_cons, List.zipWith_cons_cons, add_zero]
    rw [ih]

theorem length_cumsumFrom :
    ∀ (l : List Int) (acc : Int), (cumsumFrom acc l).length = l.length := by
  intro l
  induction l with
  | nil => intro acc; rfl
  | cons x xs ih => intro acc; simp [cumsumFrom, ih]

theorem length_partList (load : List Int) (N : Nat) :
    (partList load N).length = load.length :=
  length_scatterParts _ load _

theorem length_ipart0 (load : List Int) (N : Nat) :
    (ipart0 load N).length = nsize load N := by
  simp [ipart0, partitionList, nsize]

theorem length_ipartList (load : List Int) (N : Nat) :
    (ipartList load N).length = nsize load N := by
  rw [ipartList, length_addToLast, length_ipart0]

theorem sum_map_lin (c m : Int) :
    ∀ l : List Int, (l.map (fun x => c - x * m)).sum = l.length * c - m * l.sum := by
  intro l
  induction l with
  | nil => simp
  | cons x xs ih =>
    simp only [List.map_cons, List.sum_cons, ih, List.length_cons,
      List.sum_cons]
    push_cast
    ring

theorem sum_map_mul (m : Int) :
    ∀ l : List Int, (l.map (fun x => x * m)).sum = l.sum * m := by
  intro l
  induction l with
  | nil => simp
  | cons x xs ih =>
    simp only [List.map_cons, List.sum_cons, ih, List.sum_cons]
    ring

theorem sum_partitionList (load : List Int) (N : Nat) :
    (partitionList load N).sum = (nsize load N : Int) * N := by
  rw [partitionList, sum_map_lin]
  rw [totalElig, nsize]
  ring

theorem sum_map_fdiv_fmod (n : Int) :
    ∀ l : List Int,
      l.sum = n * (l.map (fun p => p.fdiv n)).sum +
        (l.map (fun p => Int.fmod p n)).sum := by
  intro l
  induction l with
  | nil => simp
  | cons x xs ih =>
    simp only [List.sum_cons, List.map_cons]
    rw [ih]
    have := Int.fdiv_add_fmod x n
    ring_nf
    ring_nf at this ih ⊢
    omega

theorem ipart_sums (load : List Int) (N : Nat) (hn : 0 < nsize load N) :
    (remCount load N : Nat) < nsize load N ∧
    (ipart0 load N).sum = (N : Int) - remCount load N := by
  have hn' : 0 < (nsize load N : Int) := by exact_mod_cast hn
  have hM0 : 0 ≤ ((partitionList load N).map
      (fun p => Int.fmod p (nsize load N : Int))).sum := by
    apply List.sum_nonneg
    intro x hx
    rcases List.mem_map.mp hx with ⟨p, _, rfl⟩
    exact Int.fmod_nonneg' p hn'
  have hMlt : ((partitionList load N).map
      (fun p => Int.fmod p (nsize load N : Int))).sum <
      (nsize load N : Int) * (nsize load N : Int) := by
    have hb : ∀ x ∈ (partitionList load N).map
        (fun p => Int.fmod p (nsize load N : Int)),
        x ≤ (nsize load N : Int) - 1 := by
      intro x hx
      rcases List.mem_map.mp hx with ⟨p, _, rfl⟩
      have := Int.fmod_lt_of_pos p hn'
      omega
    have hlen : ((partitionList load N).map
        (fun p => Int.fmod p (nsize load N : Int))).length = nsize load N := by
      simp [partitionList, nsize]
    have := List.sum_le_card_nsmul
      ((partitionList load N).map (fun p => Int.fmod p (nsize load N : Int)))
      ((nsize load N : Int) - 1) hb
    rw [hlen, nsmul_eq_mul] at this
    nlinarith
  have hsplit := sum_map_fdiv_fmod (nsize load N : Int) (partitionList load N)
  rw [sum_partitionList] at hsplit
  have hSI : (ipart0 load N).sum = ((partitionList load N).map
      (fun p => Int.fdiv p (nsize load N : Int))).sum := by
    simp only [ipart0]
  have hdvd : (nsize load N : Int) ∣ ((partitionList load N).map
      (fun p => Int.fmod p (nsize load N : Int))).sum := by
    refine ⟨(N : Int) - ((partitionList load N).map
      (fun p => Int.fdiv p (nsize load N : Int))).sum, ?_⟩
    rw [Int.mul_sub]
    omega
  rcases hdvd with ⟨c, hc⟩
  have hc0 : 0 ≤ c := by nlinarith
  have hcn : c < (nsize load N : Int) := by nlinarith
  have hrem : (remCount load N : Int) = c := by
    rw [remCount]
    rw [Int.fdiv_eq_ediv _ (le_of_lt hn')]
    rw [hc, Int.mul_ediv_cancel_left c (by omega)]
    exact Int.toNat_of_nonneg hc0
  constructor
  · have hfin : (remCount load N : Int) < (nsize load N : Int) := by
      rw [hrem]; exact hcn
    exact_mod_cast hfin
  · rw [hSI, hrem]
    have hmul : (nsize load N : Int) * ((partitionList load N).map
        (fun p => Int.fdiv p (nsize load N : Int))).sum =
        (nsize load N : Int) * ((N : Int) - c) := by
      rw [Int.mul_sub]
      omega
    exact mul_left_cancel₀ (by omega) hmul

theorem sum_ipartList (load : List Int) (N : Nat) (hn : 0 < nsize load N) :
    (ipartList load N).sum = (N : Int) := by
  obtain ⟨hlt, hsum⟩ := ipart_sums load N hn
  rw [ipartList, sum_addToLast, length_ipart0, hsum]
  have : min (remCount load N) (nsize load N) = remCount load N := by omega
  rw [this]
  ring

theorem nsize_zero_N_zero (load : List Int) (N : Nat) (hP : load ≠ [])
    (h : nsize load N = 0) : N = 0 := by
  have helig : eligList load N = [] :=
    List.length_eq_zero.mp h
  have hall : ∀ x ∈ load, totalLoad load N ≤ x * (load.length : Int) := by
    intro x hx
    have := List.filter_eq_nil_iff.mp helig x hx
    simp only [eligP, decide_eq_true_eq] at this
    omega
  have hsum : (load.length : Int) * totalLoad load N ≤ load.sum * load.length := by
    have hb : ∀ y ∈ load.map (fun x => x * (load.length : Int)),
        totalLoad load N ≤ y := by
      intro y hy
      rcases List.mem_map.mp hy with ⟨x, hx, rfl⟩
      exact hall x hx
    have := List.card_nsmul_le_sum
      (load.map (fun x => x * (load.length : Int))) (totalLoad load N) hb
    rw [sum_map_mul, List.length_map, nsmul_eq_mul] at this
    exact this
  rw [totalLoad] at hsum
  have hP' : 0 < (load.length : Int) := by
    have := List.length_pos.mpr hP
    exact_mod_cast this
  by_contra hN
  have hN' : 0 < (N : Int) := by
    have : 0 < N := Nat.pos_of_ne_zero hN
    exact_mod_cast this
  nlinarith

theorem sum_partList (load : List Int) (N : Nat) (hP : load ≠ []) :
    (partList load N).sum = (N : Int) := by
  by_cases hn : nsize load N = 0
  · have hN := nsize_zero_N_zero load N hP hn
    have hv : ipartList load N = [] := by
      have := length_ipartList load N
      rw [hn] at this
      exact List.length_eq_zero.mp this
    rw [partList, hv, scatterParts_nil_vs]
    rw [hN]
    simp
  · have hlen : (ipartList load N).length =
        (load.filter (eligP (totalLoad load N) load.length)).length := by
      rw [length_ipartList]
      rfl
    rw [partList, sum_scatterParts _ load _ hlen]
    exact sum_ipartList load N (Nat.pos_of_ne_zero hn)

theorem nsize_pos (load : List Int) (N : Nat) (hP : load ≠ []) (hN : 1 ≤ N) :
    0 < nsize load N := by
  have hmem := listMin_mem hP
  have hb : ∀ x ∈ load, listMin load ≤ x := listMin_le load
  have hsum : (load.length : Int) * listMin load ≤ load.sum := by
    have := List.card_nsmul_le_sum load (listMin load) hb
    rw [nsmul_eq_mul] at this
    exact this
  have helig : eligP (totalLoad load N) load.length (listMin load) = true := by
    simp only [eligP, decide_eq_true_eq, totalLoad]
    have hN' : (1 : Int) ≤ (N : Int) := by exact_mod_cast hN
    nlinarith
  have : listMin load ∈ eligList load N :=
    List.mem_filter.mpr ⟨hmem, helig⟩
  have := List.length_pos.mpr (List.ne_nil_of_mem this)
  exact this

end Ptypy

namespace Ptypy

/-! ## Cumulative boundaries and rank selection -/

theorem cumsumFrom_getD :
    ∀ (l : List Int) (acc : Int) (j : Nat), j < l.length →
      (cumsumFrom acc l).getD j 0 = acc + (l.take (j + 1)).sum := by
  intro l
  induction l with
  | nil => intro acc j hj; cases hj
  | cons x xs ih =>
    intro acc j hj
    cases j with
    | zero => simp [cumsumFrom]
    | succ j =>
      show (cumsumFrom (acc + x) xs).getD j 0 =
        acc + (List.take (j + 1 + 1) (x :: xs)).sum
      rw [ih (acc + x) j (by simpa using hj)]
      rw [List.take_succ_cons, List.sum_cons]
      ring

theorem length_cumpartList (load : List Int) (N : Nat) :
    (cumpartList load N).length = load.length := by
  rw [cumpartList, cumsum, length_cumsumFrom, length_partList]

theorem cumpart_last (load : List Int) (N : Nat) (hP : load ≠ []) :
    (cumpartList load N).getD (load.length - 1) 0 = (N : Int) := by
  have hpos : 0 < load.length := List.length_pos.mpr hP
  have hlen : load.length - 1 < (partList load N).length := by
    rw [length_partList]; omega
  rw [cumpartList, cumsum, cumsumFrom_getD _ 0 _ hlen]
  have htake : (partList load N).take (load.length - 1 + 1) = partList load N := by
    apply List.take_of_length_le
    rw [length_partList]
    omega
  rw [htake, sum_partList load N hP]
  ring

theorem chooseRank_lt (load : List Int) (N : Nat) (hP : load ≠ [])
    {i : Nat} (hi : i < N) :
    chooseRank (cumpartList load N) i < load.length := by
  have hpos : 0 < load.length := List.length_pos.mpr hP
  have hlast := cumpart_last load N hP
  have hlt : load.length - 1 < (cumpartList load N).length := by
    rw [length_cumpartList]; omega
  have hmem : (cumpartList load N).getD (load.length - 1) 0 ∈
      cumpartList load N := by
    rw [getD_eq_getElem_of_lt hlt]
    exact (cumpartList load N).getElem_mem hlt
  have hfound : ∃ c ∈ cumpartList load N, decide ((i : Int) < c) = true := by
    refine ⟨(cumpartList load N).getD (load.length - 1) 0, hmem, ?_⟩
    rw [hlast]
    simp
    exact_mod_cast hi
  have := List.findIdx_lt_length_of_exists hfound
  rw [length_cumpartList] at this
  exact this

theorem chooseRank_mono (c : List Int) {i i' : Nat} (h : i ≤ i') :
    chooseRank c i ≤ chooseRank c i' := by
  apply List.findIdx_le_findIdx
  intro x hx hp
  simp only [decide_eq_true_eq] at hp ⊢
  have : (i : Int) ≤ i' := by exact_mod_cast h
  omega

theorem bulkOut_length (load : List Int) (N : Nat) :
    (bulkOut load N).length = load.length := by
  simp [bulkOut]

theorem bulkOut_getD (load : List Int) (N : Nat) {r : Nat}
    (hr : r < load.length) :
    (bulkOut load N).getD r [] = (List.range N).filter
      (fun i => decide (chooseRank (cumpartList load N) i = r)) := by
  have hr' : r < (List.range load.length).length := by simpa using hr
  rw [bulkOut, List.getD_eq_getElem?_getD, List.getElem?_map]
  rw [List.getElem?_eq_getElem hr']
  simp

theorem bulkOut_getD_default (load : List Int) (N : Nat) {r : Nat}
    (hr : load.length ≤ r) : (bulkOut load N).getD r [] = [] := by
  apply List.getD_eq_default
  rw [bulkOut_length]
  exact hr

theorem mem_bulkOut_iff (load : List Int) (N : Nat) (hP : load ≠ [])
    (r i : Nat) :
    i ∈ (bulkOut load N).getD r [] ↔
      i < N ∧ chooseRank (cumpartList load N) i = r := by
  by_cases hr : r < load.length
  · rw [bulkOut_getD load N hr]
    simp [List.mem_filter]
  · push_neg at hr
    rw [bulkOut_getD_default load N hr]
    simp only [List.not_mem_nil, false_iff, not_and]
    intro hi hc
    have := chooseRank_lt load N hP hi
    omega

/-! ## Strictly sorted lists with equal membership are equal -/

theorem sorted_lt_eq_of_mem_iff :
    ∀ (l₁ l₂ : List Nat), l₁.Pairwise (· < ·) → l₂.Pairwise (· < ·) →
      (∀ a, a ∈ l₁ ↔ a ∈ l₂) → l₁ = l₂ := by
  intro l₁
  induction l₁ with
  | nil =>
    intro l₂ _ _ h
    cases l₂ with
    | nil => rfl
    | cons y ys =>
      exact absurd ((h y).mpr (List.mem_cons_self y ys)) (List.not_mem_nil y)
  | cons x xs ih =>
    intro l₂ h₁ h₂ h
    cases l₂ with
    | nil =>
      exact absurd ((h x).mp (List.mem_cons_self x xs)) (List.not_mem_nil x)
    | cons y ys =>
      rcases List.pairwise_cons.mp h₁ with ⟨hx1, hxs⟩
      rcases List.pairwise_cons.mp h₂ with ⟨hy2, hys⟩
      have hxy : x = y := by
        have hx2 := (h x).mp (List.mem_cons_self x xs)
        have hy1 := (h y).mpr (List.mem_cons_self y ys)
        rcases List.mem_cons.mp hx2 with he | hxm
        · exact he
        · rcases List.mem_cons.mp hy1 with he | hym
          · exact he.symm
          · have h1 := hy2 x hxm
            have h2 := hx1 y hym
            omega
      subst hxy
      congr 1
      apply ih ys hxs hys
      intro a
      constructor
      · intro ha
        have hlt := hx1 a ha
        have : a ∈ x :: ys := (h a).mp (List.mem_cons_of_mem x ha)
        rcases List.mem_cons.mp this with he | hm
        · omega
        · exact hm
      · intro ha
        have hlt := hy2 a ha
        have : a ∈ x :: xs := (h a).mpr (List.mem_cons_of_mem x ha)
        rcases List.mem_cons.mp this with he | hm
        · omega
        · exact hm

/-- The concatenation of the returned per-rank lists, in rank order, is
exactly `range N` — coverage, disjointness and order preservation in one. -/
theorem bulkOut_flatten (load : List Int) (N : Nat) (hP : load ≠ []) :
    (bulkOut load N).flatten = List.range N := by
  apply sorted_lt_eq_of_mem_iff
  · rw [List.pairwise_flatten]
    constructor
    · intro l hl
      rcases List.mem_map.mp hl with ⟨r, _, rfl⟩
      exact (List.pairwise_lt_range N).filter _
    · simp only [bulkOut]
      rw [List.pairwise_map]
      have hplt := List.pairwise_lt_range load.length
      apply hplt.imp_of_mem
      intro r r' hr hr' hlt x hx y hy
      simp only [List.mem_filter, List.mem_range, decide_eq_true_eq] at hx hy
      by_contra hcon
      push_neg at hcon
      have := chooseRank_mono (cumpartList load N) hcon
      rw [hx.2, hy.2] at this
      omega
  · exact List.pairwise_lt_range N
  · intro a
    rw [List.mem_flatten]
    constructor
    · rintro ⟨l, hl, ha⟩
      rcases List.mem_map.mp hl with ⟨r, _, rfl⟩
      simp only [List.mem_filter, List.mem_range] at ha
      simpa using ha.1
    · intro ha
      rw [List.mem_range] at ha
      have hc := chooseRank_lt load N hP ha
      refine ⟨(List.range N).filter
        (fun i => decide (chooseRank (cumpartList load N) i =
          chooseRank (cumpartList load N) a)), ?_, ?_⟩
      · exact List.mem_map_of_mem _ (List.mem_range.mpr hc)
      · simp [List.mem_filter, List.mem_range, ha]

end Ptypy

namespace Ptypy

/-- C7 (confirmed): for every bulk `assign(items)` call with N ≥ 1 items,
the set of eligible ranks is non-empty (so the divisions by `nsize` have a
positive divisor), and every item index finds a rank whose cumulative
boundary exceeds it (the `rlist[i < cumpart][0]` lookup never faces an
empty selection). -/
theorem bulk_assign_safety (load : List Int) (idlist : List Nat)
    (hP : load ≠ []) (hN : 1 ≤ idlist.length) :
    0 < nsize load idlist.length ∧
    ∀ i, i < idlist.length →
      chooseRank (cumpartList load idlist.length) i < load.length :=
  ⟨nsize_pos load _ hP hN, fun _ hi => chooseRank_lt load _ hP hi⟩

theorem bulk_assign_safety_witness :
    (([0, 0] : List Int) ≠ [] ∧ 1 ≤ ([5] : List Nat).length) ∧
    (0 < nsize [0, 0] ([5] : List Nat).length ∧
      ∀ i, i < ([5] : List Nat).length →
        chooseRank (cumpartList [0, 0] ([5] : List Nat).length) i <
          ([0, 0] : List Int).length) :=
  ⟨⟨by decide, by decide⟩, bulk_assign_safety [0, 0] [5] (by decide) (by decide)⟩

/-- C8 (confirmed): concatenating the returned per-rank index lists in rank
order yields exactly `0, 1, ..., N-1` in strictly increasing order: the
assignment cuts the item list into contiguous, order-preserving blocks. -/
theorem bulk_assign_order_preserving (d : List (Nat × Nat)) (load : List Int)
    (idlist : List Nat) (hP : load ≠ []) :
    ((assignBulk ⟨load, d⟩ idlist).2).flatten = List.range idlist.length :=
  bulkOut_flatten load idlist.length hP

theorem bulk_assign_order_preserving_witness :
    (([0, 0] : List Int) ≠ []) ∧
    ((assignBulk ⟨[0, 0], []⟩ [7, 8, 9]).2).flatten =
      List.range ([7, 8, 9] : List Nat).length :=
  ⟨by decide, bulk_assign_order_preserving [] [0, 0] [7, 8, 9] (by decide)⟩

/-- C1 (confirmed): every bulk `assign(items)` call over P ≥ 1 ranks
returns P ordered index lists forming a partition of `{0,...,N-1}`: the
union is exactly the indices below N, each index lies in exactly one list,
and each list is strictly increasing without duplicates. -/
theorem bulk_assign_partition (d : List (Nat × Nat)) (load : List Int)
    (idlist : List Nat) (hP : load ≠ []) :
    ((assignBulk ⟨load, d⟩ idlist).2).length = load.length ∧
    (∀ r, ((assignBulk ⟨load, d⟩ idlist).2.getD r []).Pairwise (· < ·)) ∧
    (∀ i, i < idlist.length ↔
      ∃ r, r < load.length ∧ i ∈ (assignBulk ⟨load, d⟩ idlist).2.getD r []) ∧
    (∀ i r r', i ∈ (assignBulk ⟨load, d⟩ idlist).2.getD r [] →
      i ∈ (assignBulk ⟨load, d⟩ idlist).2.getD r' [] → r = r') ∧
    (∀ r, ((assignBulk ⟨load, d⟩ idlist).2.getD r []).Nodup) := by
  have hout : (assignBulk ⟨load, d⟩ idlist).2 = bulkOut load idlist.length :=
    rfl
  rw [hout]
  refine ⟨bulkOut_length load idlist.length, ?_, ?_, ?_, ?_⟩
  · intro r
    by_cases hr : r < load.length
    · rw [bulkOut_getD load idlist.length hr]
      exact (List.pairwise_lt_range idlist.length).filter _
    · push_neg at hr
      rw [bulkOut_getD_default load idlist.length hr]
      exact List.Pairwise.nil
  · intro i
    constructor
    · intro hi
      exact ⟨chooseRank (cumpartList load idlist.length) i,
        chooseRank_lt load idlist.length hP hi,
        (mem_bulkOut_iff load idlist.length hP _ i).mpr ⟨hi, rfl⟩⟩
    · rintro ⟨r, _, hm⟩
      exact ((mem_bulkOut_iff load idlist.length hP r i).mp hm).1
  · intro i r r' h1 h2
    have a1 := (mem_bulkOut_iff load idlist.length hP r i).mp h1
    have a2 := (mem_bulkOut_iff load idlist.length hP r' i).mp h2
    rw [← a1.2, ← a2.2]
  · intro r
    by_cases hr : r < load.length
    · rw [bulkOut_getD load idlist.length hr]
      exact (List.nodup_range idlist.length).filter _
    · push_neg at hr
      rw [bulkOut_getD_default load idlist.length hr]
      exact List.nodup_nil

theorem bulk_assign_partition_witness :
    (([0, 0] : List Int) ≠ []) ∧
    ((assignBulk ⟨[0, 0], []⟩ [7, 8, 9]).2).length =
      ([0, 0] : List Int).length :=
  ⟨by decide, (bulk_assign_partition [] [0, 0] [7, 8, 9] (by decide)).1⟩

end Ptypy

namespace Ptypy

/-! ## Counting the items a given rank receives -/

theorem length_filter_range_lt (m N : Nat) :
    ((List.range N).filter (fun i => decide (i < m))).length = min m N := by
  induction N with
  | zero => simp
  | succ N ih =>
    rw [List.range_succ, List.filter_append, List.length_append, ih]
    by_cases h : N < m
    · have hd : (List.filter (fun i => decide (i < m)) [N]).length = 1 := by
        simp [h]
      rw [hd]
      omega
    · have hd : (List.filter (fun i => decide (i < m)) [N]).length = 0 := by
        simp [h]
      rw [hd]
      omega

theorem findIdx_map_general (f : α → β) (p : β → Bool) :
    ∀ l : List α, (l.map f).findIdx p = l.findIdx (fun x => p (f x)) := by
  intro l
  induction l with
  | nil => rfl
  | cons x xs ih => simp [List.findIdx_cons, ih]

theorem cumsumFrom_shift (a : Int) :
    ∀ (l : List Int) (b : Int),
      cumsumFrom (a + b) l = (cumsumFrom b l).map (fun x => a + x) := by
  intro l
  induction l with
  | nil => intro b; rfl
  | cons x xs ih =>
    intro b
    simp only [cumsumFrom, List.map_cons]
    rw [add_assoc]
    rw [ih (b + x)]

theorem cumsum_cons (p : Int) (ps : List Int) :
    cumsum (p :: ps) = p :: (cumsum ps).map (fun x => p + x) := by
  show cumsumFrom 0 (p :: ps) = _
  simp only [cumsumFrom, zero_add]
  have h := cumsumFrom_shift p ps 0
  rw [add_zero] at h
  rw [h]
  rfl

theorem chooseRank_cons (p : Int) (ps : List Int) (i : Nat) (hp : 0 ≤ p) :
    chooseRank (cumsum (p :: ps)) i =
      if (i : Int) < p then 0
      else chooseRank (cumsum ps) (i - p.toNat) + 1 := by
  rw [cumsum_cons, chooseRank, List.findIdx_cons]
  by_cases h : (i : Int) < p
  · rw [decide_eq_true h, Bool.cond_true, if_pos h]
  · rw [decide_eq_false h, Bool.cond_false, if_neg h,
      findIdx_map_general]
    have hfun : (fun x => decide ((i : Int) < p + x)) =
        (fun x => decide (((i - p.toNat : Nat) : Int) < x)) := by
      funext x
      apply decide_eq_decide.mpr
      omega
    rw [hfun]
    rfl

theorem bucket_count :
    ∀ (parts : List Int) (N r : Nat), (∀ x ∈ parts, 0 ≤ x) →
      parts.sum = (N : Int) → r < parts.length →
      ((List.range N).filter
        (fun i => decide (chooseRank (cumsum parts) i = r))).length =
        (parts.getD r 0).toNat := by
  intro parts
  induction parts with
  | nil =>
    intro N r _ _ hr
    simp at hr
  | cons p ps ih =>
    intro N r hpos hsum hr
    have hp : 0 ≤ p := hpos p (List.mem_cons_self p ps)
    have hps : 0 ≤ ps.sum :=
      List.sum_nonneg (fun x hx => hpos x (List.mem_cons_of_mem p hx))
    rw [List.sum_cons] at hsum
    have hmN : p.toNat ≤ N := by omega
    cases r with
    | zero =>
      have hcong : ∀ i ∈ List.range N,
          (decide (chooseRank (cumsum (p :: ps)) i = 0)) =
            (decide (i < p.toNat)) := by
        intro i _
        rw [chooseRank_cons p ps i hp]
        apply decide_eq_decide.mpr
        by_cases h : (i : Int) < p
        · rw [if_pos h]
          constructor
          · intro _; omega
          · intro _; rfl
        · rw [if_neg h]
          constructor
          · intro hc; cases hc
          · intro hc; omega
      rw [List.filter_congr hcong, length_filter_range_lt]
      simp only [List.getD_cons_zero]
      omega
    | succ r =>
      have hrps : r < ps.length := by simpa using hr
      have hNsplit : N = p.toNat + (N - p.toNat) := by omega
      conv_lhs => rw [hNsplit]
      rw [List.range_add, List.filter_append, List.length_append]
      have h1 : (List.range p.toNat).filter
          (fun i => decide (chooseRank (cumsum (p :: ps)) i = r + 1)) = [] := by
        apply List.filter_eq_nil_iff.mpr
        intro i hi
        rw [List.mem_range] at hi
        rw [chooseRank_cons p ps i hp]
        have hlt : (i : Int) < p := by omega
        simp [hlt]
      rw [h1, List.length_nil, List.filter_map, List.length_map]
      have hcong2 : ∀ j ∈ List.range (N - p.toNat),
          ((fun i => decide (chooseRank (cumsum (p :: ps)) i = r + 1)) ∘
            (fun j => p.toNat + j)) j =
            decide (chooseRank (cumsum ps) j = r) := by
        intro j _
        simp only [Function.comp]
        rw [chooseRank_cons p ps (p.toNat + j) hp]
        have hnlt : ¬((p.toNat + j : Nat) : Int) < p := by omega
        rw [if_neg hnlt]
        have hj : p.toNat + j - p.toNat = j := by omega
        rw [hj]
        apply decide_eq_decide.mpr
        omega
      rw [List.filter_congr hcong2]
      rw [ih (N - p.toNat) r
        (fun x hx => hpos x (List.mem_cons_of_mem p hx))
        (by omega) hrps]
      simp

end Ptypy

namespace Ptypy

/-! ## The equal-load instance of the allocator -/

theorem addToLast_zero : ∀ l : List Int, addToLast 0 l = l := by
  intro l
  induction l with
  | nil => rfl
  | cons x xs ih => simp [addToLast, ih]

theorem addToLast_getD :
    ∀ (l : List Int) (rem j : Nat), j < l.length →
      (addToLast rem l).getD j 0 =
        if l.length - j ≤ rem then l.getD j 0 + 1 else l.getD j 0 := by
  intro l
  induction l with
  | nil =>
    intro rem j hj
    simp at hj
  | cons x xs ih =>
    intro rem j hj
    cases j with
    | zero =>
      simp only [addToLast, List.getD_cons_zero, Nat.sub_zero]
    | succ j =>
      simp only [addToLast, List.getD_cons_succ, List.length_cons]
      rw [ih rem j (by simpa using hj)]
      rw [show xs.length + 1 - (j + 1) = xs.length - j from by omega]

theorem mem_addToLast :
    ∀ (l : List Int) (rem : Nat) (x : Int), x ∈ addToLast rem l →
      ∃ y ∈ l, x = y ∨ x = y + 1 := by
  intro l
  induction l with
  | nil =>
    intro rem x hx
    simp [addToLast] at hx
  | cons z zs ih =>
    intro rem x hx
    rw [addToLast] at hx
    rcases List.mem_cons.mp hx with he | hm
    · refine ⟨z, List.mem_cons_self z zs, ?_⟩
      by_cases h : (z :: zs).length ≤ rem
      · rw [if_pos h] at he
        right
        exact he
      · rw [if_neg h] at he
        left
        exact he
    · rcases ih rem x hm with ⟨y, hy, hv⟩
      exact ⟨y, List.mem_cons_of_mem z hy, hv⟩

theorem scatter_all_true (pred : Int → Bool) :
    ∀ (l vs : List Int), (∀ x ∈ l, pred x = true) → vs.length = l.length →
      scatterParts pred l vs = vs := by
  intro l
  induction l with
  | nil =>
    intro vs _ hv
    rw [List.length_nil] at hv
    rw [List.length_eq_zero.mp hv]
    rfl
  | cons x xs ih =>
    intro vs hall hv
    cases vs with
    | nil => simp at hv
    | cons v vt =>
      simp only [List.length_cons, Nat.succ.injEq] at hv
      simp only [scatterParts, hall x (List.mem_cons_self x xs), if_true,
        List.headD_cons, List.tail_cons]
      rw [ih vt (fun y hy => hall y (List.mem_cons_of_mem x hy)) hv]

theorem getD_replicate (P : Nat) (v : Int) {r : Nat} (hr : r < P) :
    (List.replicate P v).getD r 0 = v := by
  rw [getD_eq_getElem_of_lt (by simpa using hr)]
  simp

theorem sum_replicate_int (P : Nat) (v : Int) :
    (List.replicate P v).sum = P * v := by
  rw [List.sum_replicate, nsmul_eq_mul]

theorem replicate_ne_nil_of_pos {P : Nat} (L : Int) (hP : 0 < P) :
    List.replicate P L ≠ [] := by
  intro h
  have := List.length_replicate P L
  rw [h] at this
  simp at this
  omega

theorem partList_replicate (P : Nat) (L : Int) (N : Nat) (hP : 0 < P) :
    partList (List.replicate P L) N =
      addToLast (N % P) (List.replicate P ((N / P : Nat) : Int)) := by
  by_cases hN : N = 0
  · subst hN
    have helig : eligList (List.replicate P L) 0 = [] := by
      apply List.filter_eq_nil_iff.mpr
      intro x hx
      rw [List.eq_of_mem_replicate hx]
      simp only [eligP, totalLoad, List.length_replicate, sum_replicate_int,
        decide_eq_true_eq, not_lt]
      rw [mul_comm]
      omega
    have hip : ipartList (List.replicate P L) 0 = [] := by
      rw [ipartList, ipart0, partitionList, helig]
      rfl
    rw [partList, hip, scatterParts_nil_vs, List.map_replicate]
    simp [addToLast_zero]
  · have hNpos : 0 < N := Nat.pos_of_ne_zero hN
    have hNpos' : (0 : Int) < N := by exact_mod_cast hNpos
    have hpredL : eligP (totalLoad (List.replicate P L) N)
        (List.replicate P L).length L = true := by
      simp only [eligP, totalLoad, List.length_replicate, sum_replicate_int,
        decide_eq_true_eq]
      have hc : L * (P : Int) = (P : Int) * L := mul_comm L (P : Int)
      rw [hc]
      linarith
    have helig : eligList (List.replicate P L) N = List.replicate P L := by
      apply List.filter_eq_self.mpr
      intro a ha
      rw [List.eq_of_mem_replicate ha]
      exact hpredL
    have hn : nsize (List.replicate P L) N = P := by
      rw [nsize, helig, List.length_replicate]
    have htE : totalElig (List.replicate P L) N = P * L + N := by
      rw [totalElig, helig, sum_replicate_int]
    have hP' : (0 : Int) < P := by exact_mod_cast hP
    have hpart : partitionList (List.replicate P L) N =
        List.replicate P (N : Int) := by
      rw [partitionList, helig, List.map_replicate, htE, hn]
      congr 1
      ring
    have hip0 : ipart0 (List.replicate P L) N =
        List.replicate P ((N / P : Nat) : Int) := by
      rw [ipart0, hpart, List.map_replicate, hn]
      congr 1
      rw [Int.fdiv_eq_ediv _ (le_of_lt hP')]
      exact (Int.ofNat_ediv N P).symm
    have hrem : remCount (List.replicate P L) N = N % P := by
      rw [remCount, hpart, hn, List.map_replicate]
      rw [show Int.fmod (N : Int) (P : Int) = ((N % P : Nat) : Int) from
        (Int.ofNat_fmod N P).symm]
      rw [sum_replicate_int]
      rw [Int.fdiv_eq_ediv _ (le_of_lt hP')]
      rw [Int.mul_ediv_cancel_left _ (by omega)]
      omega
    rw [partList, ipartList, hip0, hrem]
    apply scatter_all_true
    · intro x hx
      rw [List.eq_of_mem_replicate hx]
      exact hpredL
    · rw [length_addToLast, List.length_replicate, List.length_replicate]

theorem ceil_succ_of_mod_pos (N P : Nat) (hP : 0 < P) (h : 0 < N % P) :
    (N + P - 1) / P = N / P + 1 := by
  have hd := Nat.div_add_mod N P
  have h1 : N + P - 1 = (N % P + P - 1) + P * (N / P) := by omega
  rw [h1, Nat.add_mul_div_left _ _ hP]
  have hmlt := Nat.mod_lt N hP
  have h2 : (N % P + P - 1) / P = 1 := by
    apply Nat.div_eq_of_lt_le
    · omega
    · omega
  rw [h2]
  omega

end Ptypy

namespace Ptypy

theorem parts_replicate_nonneg (P : Nat) (L : Int) (N : Nat) (hP : 0 < P) :
    ∀ x ∈ partList (List.replicate P L) N, 0 ≤ x := by
  intro x hx
  rw [partList_replicate P L N hP] at hx
  rcases mem_addToLast _ _ _ hx with ⟨y, hy, hv⟩
  rw [List.eq_of_mem_replicate hy] at hv
  rcases hv with rfl | rfl
  · positivity
  · positivity

theorem bucket_length_replicate (P : Nat) (L : Int) (N : Nat) (hP : 0 < P)
    {r : Nat} (hr : r < P) :
    ((List.range N).filter (fun i => decide
      (chooseRank (cumpartList (List.replicate P L) N) i = r))).length =
      if P - r ≤ N % P then N / P + 1 else N / P := by
  have hne := replicate_ne_nil_of_pos L hP
  have hlenp : (partList (List.replicate P L) N).length = P := by
    rw [length_partList, List.length_replicate]
  have hc := bucket_count (partList (List.replicate P L) N) N r
    (parts_replicate_nonneg P L N hP)
    (sum_partList _ N hne) (by rw [hlenp]; exact hr)
  have hcp : cumsum (partList (List.replicate P L) N) =
      cumpartList (List.replicate P L) N := rfl
  rw [hcp] at hc
  rw [hc, partList_replicate P L N hP]
  rw [addToLast_getD _ _ r
    (by rw [List.length_replicate]; exact hr)]
  rw [List.length_replicate, getD_replicate P _ hr]
  by_cases h : P - r ≤ N % P
  · rw [if_pos h, if_pos h]
    rw [show ((N / P : Nat) : Int) + 1 = ((N / P + 1 : Nat) : Int) from by
      rw [Nat.cast_add, Nat.cast_one]]
    exact Int.toNat_natCast _
  · rw [if_neg h, if_neg h]
    exact Int.toNat_natCast _

/-- C6 (confirmed): when all P ranks start at the same load L, one bulk
`assign` of N items gives every rank either `floor(N/P)` or `ceil(N/P)` new
items, the per-rank counts summing to N and differing pairwise by at most
one. -/
theorem bulk_assign_fairness (d : List (Nat × Nat)) (P : Nat) (L : Int)
    (idlist : List Nat) (hP : 0 < P) :
    (((assignBulk ⟨List.replicate P L, d⟩ idlist).2).map List.length).sum =
      idlist.length ∧
    (∀ c ∈ ((assignBulk ⟨List.replicate P L, d⟩ idlist).2).map List.length,
      c = idlist.length / P ∨ c = (idlist.length + P - 1) / P) ∧
    (∀ c ∈ ((assignBulk ⟨List.replicate P L, d⟩ idlist).2).map List.length,
      ∀ c' ∈ ((assignBulk ⟨List.replicate P L, d⟩ idlist).2).map List.length,
        c ≤ c' + 1) := by
  have hne := replicate_ne_nil_of_pos L hP
  have hout : (assignBulk ⟨List.replicate P L, d⟩ idlist).2 =
      bulkOut (List.replicate P L) idlist.length := rfl
  rw [hout]
  have hbucket : ∀ c ∈ (bulkOut (List.replicate P L) idlist.length).map
      List.length,
      c = idlist.length / P ∨
        (c = idlist.length / P + 1 ∧ 0 < idlist.length % P) := by
    intro c hc
    rcases List.mem_map.mp hc with ⟨bucket, hb, rfl⟩
    rcases List.mem_map.mp hb with ⟨r, hrm, rfl⟩
    rw [List.mem_range, List.length_replicate] at hrm
    rw [bucket_length_replicate P L idlist.length hP hrm]
    by_cases h : P - r ≤ idlist.length % P
    · rw [if_pos h]
      right
      exact ⟨rfl, by omega⟩
    · rw [if_neg h]
      left
      rfl
  refine ⟨?_, ?_, ?_⟩
  · have hlen := List.length_flatten
      (bulkOut (List.replicate P L) idlist.length)
    rw [bulkOut_flatten _ _ hne, List.length_range] at hlen
    exact hlen.symm
  · intro c hc
    rcases hbucket c hc with h | ⟨h1, h2⟩
    · exact Or.inl h
    · right
      rw [h1, ceil_succ_of_mod_pos idlist.length P hP h2]
  · intro c hc c' hc'
    rcases hbucket c hc with h | ⟨h1, _⟩ <;>
      rcases hbucket c' hc' with h' | ⟨h1', _⟩ <;> omega

theorem bulk_assign_fairness_witness :
    (0 < 3) ∧
    (((assignBulk ⟨List.replicate 3 (0 : Int), []⟩
        [10, 11, 12, 13, 14, 15, 16]).2).map List.length).sum =
      ([10, 11, 12, 13, 14, 15, 16] : List Nat).length :=
  ⟨by decide,
    (bulk_assign_fairness [] 3 0 [10, 11, 12, 13, 14, 15, 16] (by decide)).1⟩

end Ptypy

namespace Ptypy

/-! ## Pointwise description of a bulk assignment -/

theorem getD_set_self {l : List Int} {n : Nat} (h : n < l.length) (v : Int) :
    (l.set n v).getD n 0 = v := by
  rw [getD_eq_getElem_of_lt (by simpa using h)]
  simp

theorem getD_set_ne {l : List Int} {n r : Nat} (h : n ≠ r) (v : Int) :
    (l.set n v).getD r 0 = l.getD r 0 := by
  simp [List.getD_eq_getElem?_getD, List.getElem?_set_ne h]

theorem ipart0_eq_map_q (load : List Int) (N : Nat) :
    ipart0 load N = (eligList load N).map
      (fun x => (totalElig load N).fdiv (nsize load N : Int) - x) := by
  by_cases hn : nsize load N = 0
  · have he : eligList load N = [] := List.length_eq_zero.mp hn
    rw [ipart0, partitionList, he]
    rfl
  · rw [ipart0, partitionList, List.map_map]
    apply List.map_congr_left
    intro x _
    simp only [Function.comp]
    have hn' : (0 : Int) < (nsize load N : Int) := by
      exact_mod_cast Nat.pos_of_ne_zero hn
    rw [Int.fdiv_eq_ediv _ (le_of_lt hn'), Int.fdiv_eq_ediv _ (le_of_lt hn')]
    rw [show totalElig load N - x * (nsize load N : Int) =
      totalElig load N + (-x) * (nsize load N : Int) from by ring]
    rw [Int.add_mul_ediv_right _ _ (by omega)]
    ring

theorem scatter_zip_spec (pred : Int → Bool) (g : Int → Int) :
    ∀ (l : List Int) (rem : Nat) (j : Nat), j < l.length →
      (pred (l.getD j 0) = false →
        (l.zipWith (· + ·) (scatterParts pred l
          (addToLast rem ((l.filter pred).map g)))).getD j 0 = l.getD j 0) ∧
      (pred (l.getD j 0) = true →
        ∃ d : Int, (d = 0 ∨ d = 1) ∧
          (l.zipWith (· + ·) (scatterParts pred l
            (addToLast rem ((l.filter pred).map g)))).getD j 0 =
            l.getD j 0 + g (l.getD j 0) + d) := by
  intro l
  induction l with
  | nil =>
    intro rem j hj
    simp at hj
  | cons x xs ih =>
    intro rem j hj
    by_cases hx : pred x
    · rw [List.filter_cons_of_pos hx, List.map_cons]
      rw [show addToLast rem (g x :: (xs.filter pred).map g) =
        (if (g x :: (xs.filter pred).map g).length ≤ rem then g x + 1 else g x)
          :: addToLast rem ((xs.filter pred).map g) from rfl]
      rw [show scatterParts pred (x :: xs)
          ((if (g x :: (xs.filter pred).map g).length ≤ rem then g x + 1
              else g x) :: addToLast rem ((xs.filter pred).map g)) =
          (if (g x :: (xs.filter pred).map g).length ≤ rem then g x + 1
              else g x) :: scatterParts pred xs
            (addToLast rem ((xs.filter pred).map g)) from by
        simp [scatterParts, hx]]
      cases j with
      | zero =>
        constructor
        · intro hfalse
          rw [List.getD_cons_zero] at hfalse
          rw [hx] at hfalse
          cases hfalse
        · intro _
          refine ⟨if (g x :: (xs.filter pred).map g).length ≤ rem
            then 1 else 0, ?_, ?_⟩
          · by_cases hc : (g x :: (xs.filter pred).map g).length ≤ rem
            · rw [if_pos hc]; right; rfl
            · rw [if_neg hc]; left; rfl
          · simp only [List.zipWith_cons_cons, List.getD_cons_zero]
            by_cases hc : (g x :: (xs.filter pred).map g).length ≤ rem
            · rw [if_pos hc, if_pos hc]; ring
            · rw [if_neg hc, if_neg hc]; ring
      | succ j =>
        simp only [List.zipWith_cons_cons, List.getD_cons_succ]
        exact ih rem j (by simpa using hj)
    · rw [List.filter_cons_of_neg hx]
      rw [show scatterParts pred (x :: xs)
          (addToLast rem ((xs.filter pred).map g)) =
          0 :: scatterParts pred xs
            (addToLast rem ((xs.filter pred).map g)) from by
        simp [scatterParts, hx]]
      cases j with
      | zero =>
        constructor
        · intro _
          simp only [List.zipWith_cons_cons, List.getD_cons_zero]
          ring
        · intro htrue
          rw [List.getD_cons_zero] at htrue
          exact absurd htrue hx
      | succ j =>
        simp only [List.zipWith_cons_cons, List.getD_cons_succ]
        exact ih rem j (by simpa using hj)

theorem scatter_zip_exact (pred : Int → Bool) (g : Int → Int) :
    ∀ (l : List Int) (j : Nat), j < l.length →
      (pred (l.getD j 0) = false →
        (l.zipWith (· + ·)
          (scatterParts pred l ((l.filter pred).map g))).getD j 0 =
          l.getD j 0) ∧
      (pred (l.getD j 0) = true →
        (l.zipWith (· + ·)
          (scatterParts pred l ((l.filter pred).map g))).getD j 0 =
          l.getD j 0 + g (l.getD j 0)) := by
  intro l
  induction l with
  | nil =>
    intro j hj
    simp at hj
  | cons x xs ih =>
    intro j hj
    by_cases hx : pred x
    · rw [List.filter_cons_of_pos hx, List.map_cons]
      rw [show scatterParts pred (x :: xs)
          (g x :: (xs.filter pred).map g) =
          g x :: scatterParts pred xs ((xs.filter pred).map g) from by
        simp [scatterParts, hx]]
      cases j with
      | zero =>
        constructor
        · intro hfalse
          rw [List.getD_cons_zero] at hfalse
          rw [hx] at hfalse
          cases hfalse
        · intro _
          simp only [List.zipWith_cons_cons, List.getD_cons_zero]
      | succ j =>
        simp only [List.zipWith_cons_cons, List.getD_cons_succ]
        exact ih j (by simpa using hj)
    · rw [List.filter_cons_of_neg hx]
      rw [show scatterParts pred (x :: xs) ((xs.filter pred).map g) =
          0 :: scatterParts pred xs ((xs.filter pred).map g) from by
        simp [scatterParts, hx]]
      cases j with
      | zero =>
        constructor
        · intro _
          simp only [List.zipWith_cons_cons, List.getD_cons_zero]
          ring
        · intro htrue
          rw [List.getD_cons_zero] at htrue
          exact absurd htrue hx
      | succ j =>
        simp only [List.zipWith_cons_cons, List.getD_cons_succ]
        exact ih j (by simpa using hj)

theorem length_newLoad (load : List Int) (N : Nat) :
    (newLoad load N).length = load.length := by
  rw [newLoad, List.length_zipWith, length_partList]
  omega

theorem mem_newLoad_getD (load : List Int) (N : Nat) {y : Int}
    (hy : y ∈ newLoad load N) :
    ∃ j, j < load.length ∧ (newLoad load N).getD j 0 = y := by
  rcases List.mem_iff_getElem.mp hy with ⟨j, hjl, hje⟩
  refine ⟨j, ?_, ?_⟩
  · rw [length_newLoad] at hjl
    exact hjl
  · rw [getD_eq_getElem_of_lt hjl]
    exact hje

theorem sum_of_balanced_vals {l : List Int} {L : Int}
    (h : ∀ x ∈ l, x = L ∨ x = L + 1) :
    l.sum = L * l.length +
      (l.countP (fun x => decide (x = L + 1)) : Int) := by
  induction l with
  | nil => simp
  | cons x xs ih =>
    have hx := h x (List.mem_cons_self x xs)
    have ihr := ih (fun y hy => h y (List.mem_cons_of_mem x hy))
    rw [List.sum_cons, List.countP_cons, ihr]
    rcases hx with rfl | rfl
    · rw [show (decide (x = x + 1)) = false from by
        apply decide_eq_false; omega]
      simp only [Bool.false_eq_true, if_false, Nat.add_zero,
        List.length_cons]
      push_cast
      ring
    · rw [show (decide (L + 1 = L + 1)) = true from by simp]
      simp only [if_true, List.length_cons]
      push_cast
      ring

theorem count_split {l : List Int} {L : Int}
    (h : ∀ x ∈ l, x = L ∨ x = L + 1) :
    l.countP (fun x => decide (x = L)) +
      l.countP (fun x => decide (x = L + 1)) = l.length := by
  induction l with
  | nil => simp
  | cons x xs ih =>
    have hx := h x (List.mem_cons_self x xs)
    have ihr := ih (fun y hy => h y (List.mem_cons_of_mem x hy))
    rw [List.countP_cons, List.countP_cons, List.length_cons]
    rcases hx with rfl | rfl
    · rw [show (decide (x = x)) = true from by simp,
        show (decide (x = x + 1)) = false from by
          apply decide_eq_false; omega]
      simp only [if_true, Bool.false_eq_true, if_false, Nat.add_zero]
      omega
    · rw [show (decide (L + 1 = L)) = false from by
        apply decide_eq_false; omega,
        show (decide (L + 1 = L + 1)) = true from by simp]
      simp only [if_true, Bool.false_eq_true, if_false, Nat.add_zero]
      omega

theorem balanced_listMin {l : List Int} (hB : Balanced l) (hne : l ≠ []) :
    ∀ x ∈ l, x = listMin l ∨ x = listMin l + 1 := by
  obtain ⟨L, hL⟩ := hB
  have hmem := listMin_mem hne
  rcases hL _ hmem with hm | hm
  · intro x hx
    rcases hL x hx with rfl | rfl
    · left; rw [hm]
    · right; rw [hm]
  · intro x hx
    rcases hL x hx with rfl | rfl
    · have := listMin_le l _ hx
      omega
    · left; omega

end Ptypy

namespace Ptypy

theorem newLoad_fold (load : List Int) (N : Nat) :
    newLoad load N = load.zipWith (· + ·)
      (scatterParts (eligP (totalLoad load N) load.length) load
        (addToLast (remCount load N)
          ((load.filter (eligP (totalLoad load N) load.length)).map
            (fun x => (totalElig load N).fdiv (nsize load N : Int) - x)))) := by
  rw [newLoad, partList, ipartList, ipart0_eq_map_q]
  rfl

theorem newLoad_getD_cases (load : List Int) (N : Nat) {j : Nat}
    (hj : j < load.length) :
    (eligP (totalLoad load N) load.length (load.getD j 0) = false →
      (newLoad load N).getD j 0 = load.getD j 0) ∧
    (eligP (totalLoad load N) load.length (load.getD j 0) = true →
      ∃ d : Int, (d = 0 ∨ d = 1) ∧
        (newLoad load N).getD j 0 =
          (totalElig load N).fdiv (nsize load N : Int) + d) := by
  have h := scatter_zip_spec (eligP (totalLoad load N) load.length)
    (fun x => (totalElig load N).fdiv (nsize load N : Int) - x) load
    (remCount load N) j hj
  rw [← newLoad_fold] at h
  refine ⟨h.1, ?_⟩
  intro ht
  rcases h.2 ht with ⟨d, hd, hv⟩
  refine ⟨d, hd, ?_⟩
  rw [hv]
  ring

theorem newLoad_getD_exact (load : List Int) (N : Nat)
    (hrem : remCount load N = 0) {j : Nat} (hj : j < load.length) :
    (eligP (totalLoad load N) load.length (load.getD j 0) = false →
      (newLoad load N).getD j 0 = load.getD j 0) ∧
    (eligP (totalLoad load N) load.length (load.getD j 0) = true →
      (newLoad load N).getD j 0 =
        (totalElig load N).fdiv (nsize load N : Int)) := by
  have hfold : newLoad load N = load.zipWith (· + ·)
      (scatterParts (eligP (totalLoad load N) load.length) load
        ((load.filter (eligP (totalLoad load N) load.length)).map
          (fun x => (totalElig load N).fdiv (nsize load N : Int) - x))) := by
    rw [newLoad_fold, hrem, addToLast_zero]
  have h := scatter_zip_exact (eligP (totalLoad load N) load.length)
    (fun x => (totalElig load N).fdiv (nsize load N : Int) - x) load j hj
  rw [← hfold] at h
  refine ⟨h.1, ?_⟩
  intro ht
  rw [h.2 ht]
  ring

/-! ## One assign call from a balanced state: no load decreases and the
state stays balanced -/

theorem anon_step (s : LoadManager) (hB : Balanced s.load) :
    Balanced ((assignAnon s).1).load ∧
    ∀ r : Nat, s.load.getD r 0 ≤ ((assignAnon s).1).load.getD r 0 := by
  have hload : ((assignAnon s).1).load =
      s.load.set (anonRank s.load)
        (s.load.getD (anonRank s.load) 0 + 1) := rfl
  rw [hload]
  by_cases hne : s.load = []
  · rw [hne]
    exact ⟨⟨0, by simp⟩, by intro r; simp⟩
  · constructor
    · refine ⟨listMin s.load, ?_⟩
      intro x hx
      rcases List.mem_or_eq_of_mem_set hx with hm | he
      · exact balanced_listMin hB hne x hm
      · right
        rw [he, anonRank_val hne]
    · intro r
      by_cases hr : anonRank s.load = r
      · subst hr
        by_cases hlt : anonRank s.load < s.load.length
        · rw [getD_set_self hlt]
          omega
        · push_neg at hlt
          rw [List.set_eq_of_length_le hlt]
      · rw [getD_set_ne hr]

theorem bulk_step (load : List Int) (N : Nat) (hB : Balanced load) :
    Balanced (newLoad load N) ∧
    ∀ r : Nat, load.getD r 0 ≤ (newLoad load N).getD r 0 := by
  obtain ⟨L, hL⟩ := hB
  by_cases hn0 : nsize load N = 0
  · have hvs : ipartList load N = [] := by
      have h := length_ipartList load N
      rw [hn0] at h
      exact List.length_eq_zero.mp h
    have hnew : newLoad load N = load := by
      rw [newLoad, partList, hvs, scatterParts_nil_vs, zipWith_add_map_zero]
    rw [hnew]
    exact ⟨⟨L, hL⟩, fun r => le_refl _⟩
  have hn : 0 < nsize load N := Nat.pos_of_ne_zero hn0
  have hn' : (0 : Int) < (nsize load N : Int) := by exact_mod_cast hn
  have hne : load ≠ [] := fun he => hn0 (by rw [he]; rfl)
  have hmem : ∀ {j : Nat}, j < load.length → load.getD j 0 ∈ load := by
    intro j hj
    rw [getD_eq_getElem_of_lt hj]
    exact load.getElem_mem hj
  have htriv : ∀ r : Nat, load.length ≤ r →
      load.getD r 0 ≤ (newLoad load N).getD r 0 := by
    intro r hr
    have h1 : load.getD r 0 = 0 := by
      apply List.getD_eq_default
      exact hr
    have h2 : (newLoad load N).getD r 0 = 0 := by
      apply List.getD_eq_default
      rw [length_newLoad]
      exact hr
    omega
  have hBmem : ∀ L' : Int, (∀ j, j < load.length →
      (newLoad load N).getD j 0 = L' ∨ (newLoad load N).getD j 0 = L' + 1) →
      Balanced (newLoad load N) := by
    intro L' hptw
    refine ⟨L', ?_⟩
    intro y hy
    rcases mem_newLoad_getD load N hy with ⟨j, hj, hv⟩
    rw [← hv]
    exact hptw j hj
  by_cases hA : eligP (totalLoad load N) load.length (L + 1) = true
  · -- every rank is eligible
    have hallelig : ∀ x ∈ load,
        eligP (totalLoad load N) load.length x = true := by
      intro x hx
      simp only [eligP, decide_eq_true_eq] at hA ⊢
      have hPnn : (0 : Int) ≤ (load.length : Int) := by positivity
      rcases hL x hx with rfl | rfl
      · nlinarith
      · exact hA
    have hfil : eligList load N = load := List.filter_eq_self.mpr hallelig
    have hq1 : L + 1 ≤ (totalElig load N).fdiv (nsize load N : Int) := by
      rw [Int.fdiv_eq_ediv _ (le_of_lt hn')]
      rw [Int.le_ediv_iff_mul_le hn']
      simp only [eligP, totalLoad, decide_eq_true_eq] at hA
      have htE : totalElig load N = load.sum + N := by
        rw [totalElig, hfil]
      have hnP : nsize load N = load.length := by rw [nsize, hfil]
      rw [htE, hnP]
      linarith
    constructor
    · apply hBmem ((totalElig load N).fdiv (nsize load N : Int))
      intro j hj
      rcases (newLoad_getD_cases load N hj).2 (hallelig _ (hmem hj)) with
        ⟨d, hd, hv⟩
      rcases hd with rfl | rfl
      · left
        rw [hv]
        ring
      · right
        rw [hv]
    · intro r
      by_cases hr : r < load.length
      · rcases (newLoad_getD_cases load N hr).2 (hallelig _ (hmem hr)) with
          ⟨d, hd, hv⟩
        have hx := hL _ (hmem hr)
        rw [hv]
        rcases hd with rfl | rfl <;> rcases hx with hx | hx <;> rw [hx] <;>
          omega
      · exact htriv r (by omega)
  · have hA' : eligP (totalLoad load N) load.length (L + 1) = false := by
      simpa using hA
    by_cases hpL : eligP (totalLoad load N) load.length L = true
    · -- eligible ranks are exactly those at load L
      have hvalElig : ∀ x ∈ eligList load N, x = L := by
        intro x hx
        have hxl := List.mem_filter.mp hx
        rcases hL x hxl.1 with rfl | rfl
        · rfl
        · have hcon := hxl.2
          rw [hA'] at hcon
          cases hcon
      have hrepl : eligList load N = List.replicate (nsize load N) L :=
        List.eq_replicate_iff.mpr ⟨rfl, hvalElig⟩
      have htE : totalElig load N = (nsize load N : Int) * L + N := by
        rw [totalElig, hrepl, sum_replicate_int]
      have hq : (totalElig load N).fdiv (nsize load N : Int) =
          L + (N : Int) / (nsize load N : Int) := by
        rw [Int.fdiv_eq_ediv _ (le_of_lt hn'), htE]
        rw [show (nsize load N : Int) * L + N =
          (N : Int) + L * (nsize load N : Int) from by ring]
        rw [Int.add_mul_ediv_right _ _ (by omega)]
        ring
      have hnL : nsize load N =
          load.countP (fun x => decide (x = L)) := by
        rw [nsize, eligList, List.countP_eq_length_filter]
        congr 1
        apply List.filter_congr
        intro x hx
        rcases hL x hx with rfl | rfl
        · rw [hpL]
          rw [show decide (x = x) = true from by simp]
        · rw [hA']
          rw [show decide (L + 1 = L) = false from by
            apply decide_eq_false; omega]
      have hNn : N ≤ nsize load N := by
        have hS := sum_of_balanced_vals hL
        have hcnt := count_split hL
        have hA2 : load.sum + (N : Int) ≤ (L + 1) * load.length := by
          simp only [eligP, totalLoad, decide_eq_false_iff_not,
            not_lt] at hA'
          exact hA'
        rw [show (L + 1) * (load.length : Int) =
          L * load.length + load.length from by ring] at hA2
        rw [hS] at hA2
        have hc : (load.countP (fun x => decide (x = L)) : Int) +
            (load.countP (fun x => decide (x = L + 1)) : Int) =
            load.length := by
          exact_mod_cast hcnt
        have hInt : (N : Int) ≤ (nsize load N : Int) := by
          have hnLi : (nsize load N : Int) =
              (load.countP (fun x => decide (x = L)) : Int) := by
            exact_mod_cast hnL
          rw [hnLi]
          linarith
        exact_mod_cast hInt
      rcases Nat.lt_or_ge N (nsize load N) with hNlt | hNge
      · -- strictly fewer new items than eligible ranks: q = L
        have hqL : (totalElig load N).fdiv (nsize load N : Int) = L := by
          rw [hq, Int.ediv_eq_zero_of_lt (by positivity)
            (by exact_mod_cast hNlt)]
          ring
        constructor
        · apply hBmem L
          intro j hj
          by_cases hel : eligP (totalLoad load N) load.length
              (load.getD j 0) = true
          · rcases (newLoad_getD_cases load N hj).2 hel with ⟨d, hd, hv⟩
            rw [hv, hqL]
            rcases hd with rfl | rfl
            · left; ring
            · right; rfl
          · have hfalse : eligP (totalLoad load N) load.length
                (load.getD j 0) = false := by simpa using hel
            rw [(newLoad_getD_cases load N hj).1 hfalse]
            exact hL _ (hmem hj)
        · intro r
          by_cases hr : r < load.length
          · by_cases hel : eligP (totalLoad load N) load.length
                (load.getD r 0) = true
            · rcases (newLoad_getD_cases load N hr).2 hel with ⟨d, hd, hv⟩
              rw [hv, hqL]
              have hx : load.getD r 0 = L := by
                rcases hL _ (hmem hr) with hx | hx
                · exact hx
                · exfalso
                  rw [hx, hA'] at hel
                  cases hel
              rw [hx]
              rcases hd with rfl | rfl <;> omega
            · have hfalse : eligP (totalLoad load N) load.length
                  (load.getD r 0) = false := by simpa using hel
              rw [(newLoad_getD_cases load N hr).1 hfalse]
          · exact htriv r (by omega)
      · -- as many new items as eligible ranks: every eligible rank gets
        -- exactly one, the remainder is zero
        have hNeq : N = nsize load N := le_antisymm hNn hNge
        have hNeq' : (N : Int) = (nsize load N : Int) := by
          exact_mod_cast hNeq
        have hpart_all : ∀ p ∈ partitionList load N,
            p = (nsize load N : Int) := by
          intro p hp
          rcases List.mem_map.mp hp with ⟨x, hx, rfl⟩
          rw [hvalElig x hx, htE, hNeq']
          ring
        have hrem0 : remCount load N = 0 := by
          rw [remCount]
          have hz : ((partitionList load N).map
              (fun p => Int.fmod p (nsize load N : Int))).sum = 0 := by
            apply List.sum_eq_zero
            intro x hx
            rcases List.mem_map.mp hx with ⟨p, hp, rfl⟩
            rw [hpart_all p hp]
            exact Int.fmod_self
          rw [hz]
          simp
        have hq1 : (totalElig load N).fdiv (nsize load N : Int) = L + 1 := by
          rw [hq, hNeq', Int.ediv_self (by omega)]
        constructor
        · apply hBmem L
          intro j hj
          by_cases hel : eligP (totalLoad load N) load.length
              (load.getD j 0) = true
          · rw [(newLoad_getD_exact load N hrem0 hj).2 hel, hq1]
            right
            rfl
          · have hfalse : eligP (totalLoad load N) load.length
                (load.getD j 0) = false := by simpa using hel
            rw [(newLoad_getD_exact load N hrem0 hj).1 hfalse]
            exact hL _ (hmem hj)
        · intro r
          by_cases hr : r < load.length
          · by_cases hel : eligP (totalLoad load N) load.length
                (load.getD r 0) = true
            · rw [(newLoad_getD_exact load N hrem0 hr).2 hel, hq1]
              have hx : load.getD r 0 = L := by
                rcases hL _ (hmem hr) with hx | hx
                · exact hx
                · exfalso
                  rw [hx, hA'] at hel
                  cases hel
              rw [hx]
              omega
            · have hfalse : eligP (totalLoad load N) load.length
                  (load.getD r 0) = false := by simpa using hel
              rw [(newLoad_getD_exact load N hrem0 hr).1 hfalse]
          · exact htriv r (by omega)
    · -- no rank is eligible at all: contradiction with nsize > 0
      exfalso
      have hallf : ∀ x ∈ load,
          ¬(eligP (totalLoad load N) load.length x = true) := by
        intro x hx
        rcases hL x hx with rfl | rfl
        · exact hpL
        · exact hA
      have hnil : eligList load N = [] := List.filter_eq_nil_iff.mpr hallf
      exact hn0 (by rw [nsize, hnil]; rfl)

end Ptypy

namespace Ptypy

theorem assign_step (s : LoadManager) (q : Option (List Nat))
    (hB : Balanced s.load) :
    Balanced ((s.assign q).1).load ∧
    ∀ r : Nat, s.load.getD r 0 ≤ ((s.assign q).1).load.getD r 0 := by
  cases q with
  | none => exact anon_step s hB
  | some ids => exact bulk_step s.load ids.length hB

theorem runAssigns_balanced (s : LoadManager)
    (reqs : List (Option (List Nat))) (hB : Balanced s.load) :
    Balanced (runAssigns s reqs).load := by
  induction reqs generalizing s with
  | nil => exact hB
  | cons q rest ih => exact ih _ ((assign_step s q hB).1)

/-- C2 (counterexample): the claim quantifies over any prior load state,
but from load `[0,5,100]` (P = 3) a bulk `assign` of one item computes the
negative partition entry `6 - 5*2 = -4` for rank 1 and floor-divides it,
decreasing that rank's load from 5 to 3. -/
theorem bulk_assign_decreases_load_counterexample :
    ((LoadManager.assign ⟨[0, 5, 100], []⟩ (some [0])).1).load.getD 1 0 <
      ([0, 5, 100] : List Int).getD 1 0 := by
  decide

/-- C2 (amended): over every sequence of `assign` calls starting from a
freshly constructed `LoadManager` (all-zero loads) — equivalently from any
balanced load state, which the dynamics preserve — no call ever decreases
any rank's cumulative load: `load[r]` is non-decreasing along the whole
sequence. -/
theorem load_monotone_from_init (P : Nat)
    (reqs : List (Option (List Nat))) (req : Option (List Nat)) (r : Nat) :
    (runAssigns (initLM P) reqs).load.getD r 0 ≤
      (runAssigns (initLM P) (reqs ++ [req])).load.getD r 0 := by
  have hfold : runAssigns (initLM P) (reqs ++ [req]) =
      ((runAssigns (initLM P) reqs).assign req).1 := by
    rw [runAssigns, List.foldl_append]
    rfl
  rw [hfold]
  have hB : Balanced (runAssigns (initLM P) reqs).load := by
    apply runAssigns_balanced
    refine ⟨0, ?_⟩
    intro x hx
    left
    exact List.eq_of_mem_replicate hx
  exact (assign_step _ req hB).2 r

end Ptypy
